import Mathlib

/-!
A verification development for `compose/parallel.py`: the dependency-gated
parallel executor (`State`, `feed_queue`, `producer`, `parallel_execute_iter`),
the run aggregator (`parallel_execute`) and the multi-line progress writer
(`ParallelStreamWriter`).

Modelling choices (shallow embedding):

* Python sets become `Finset`, the caller's `objects` list stays a `List`.
* The work function `func` is a pure total function `α → Except PyExc ρ`;
  a worker thread's eventual outcome is `producer func o`, mirroring the
  `producer` function of the source (normal return versus raised exception).
* The concurrent run is a small-step relation `Step` on `Config`:
  - `Step.deliver` moves the outcome of a started worker from the set of
    in-flight workers onto the FIFO `results` queue (worker threads finish at
    nondeterministic times);
  - `Step.tick` is one iteration of the `while True` loop of
    `parallel_execute_iter`: one `feed_queue` pass (over an arbitrary
    enumeration `pend` of the pending set, since Python set iteration order is
    unspecified) followed by one `results.get` which either consumes the queue
    front (updating `finished`/`failed` and yielding the event, or breaking on
    `STOP`) or finds the queue empty (`Empty` → `continue`).
  Worker enqueues are modelled as separate transitions between loop
  iterations; the claims below do not depend on the relative queue order of
  events from different objects, which is the only thing this coarsening
  fixes.  The `thread.error → ShutdownException` path (external interrupt) is
  outside every claim and is not modelled.
* The aggregator `parallel_execute` is a fold over the (already produced) list
  of yielded events; `docker.errors.APIError` (field `explanation`),
  `compose.errors.OperationFailedError` (field `msg`) and any other exception
  are the constructors of `PyExc`.
-/

set_option maxHeartbeats 1000000
set_option linter.unusedSectionVars false

namespace Compose

/-- The exception classes distinguished by the `isinstance` chain of
`parallel_execute`: `docker.errors.APIError` carrying `explanation`,
`compose.errors.OperationFailedError` carrying `msg`, the module's own
`UpstreamError`, and any other exception carried with its textual
rendering `str(e)`. -/
inductive PyExc where
  | api (explanation : String)
  | opFailed (msg : String)
  | upstream
  | other (desc : String)
deriving DecidableEq

/-- Python's `str(e)` on the exceptions of `PyExc` (an `UpstreamError()` has an
empty message). -/
def PyExc.asStr : PyExc → String
  | .api s => s
  | .opFailed s => s
  | .upstream => ""
  | .other s => s

/-- An outcome tuple `(obj, result, exception)` as placed on the `results`
queue by `producer`/`feed_queue` and yielded by `parallel_execute_iter`. -/
structure OutEvent (α ρ : Type) where
  obj : α
  res : Option ρ
  err : Option PyExc
deriving DecidableEq

/-- An item on the `results` queue: a real outcome tuple or the `STOP`
sentinel. -/
inductive QItem (α ρ : Type) where
  | stop
  | ev (e : OutEvent α ρ)
deriving DecidableEq

/-- The object of a queue item, if it is not the sentinel. -/
def QItem.obj? : QItem α ρ → Option α
  | .stop => none
  | .ev e => some e.obj

/-- `class State` of `parallel.py`: `objects`, `started`, `finished`,
`failed`. -/
structure State (α : Type) where
  objects : List α
  started : Finset α
  finished : Finset α
  failed : Finset α
deriving DecidableEq

/-- `State.is_done`: `len(finished) + len(failed) >= len(objects)`. -/
def State.is_done (s : State α) : Bool :=
  decide (s.finished.card + s.failed.card ≥ s.objects.length)

/-- `State.pending`: `set(objects) - started - finished - failed`. -/
def State.pending [DecidableEq α] (s : State α) : Finset α :=
  ((s.objects.toFinset \ s.started) \ s.finished) \ s.failed

/-- `producer`: run `func` on one object, converting a normal return into
`(obj, result, None)` and a raised exception into `(obj, None, e)`. -/
def producer (func : α → Except PyExc ρ) (o : α) : OutEvent α ρ :=
  match func o with
  | .ok r => ⟨o, some r, none⟩
  | .error e => ⟨o, none, some e⟩

/-- Accumulator of one `feed_queue` pass: the evolving state, the objects
short-circuited with an `UpstreamError` (in pass order), and the objects whose
producer thread was started (in pass order). -/
structure FeedAcc (α : Type) where
  st : State α
  ups : List α
  launch : List α
deriving DecidableEq

/-- The body of the `for obj in pending` loop of `feed_queue`: if some
dependency is in `failed`, put an upstream-error event and add `obj` to
`failed`; else if every dependency is outside `objects` or in `finished`,
start a producer thread and add `obj` to `started`; else leave `obj` alone. -/
def feedStep [DecidableEq α] (objects : List α) (get_deps : α → List α)
    (acc : FeedAcc α) (o : α) : FeedAcc α :=
  let deps := get_deps o
  if deps.any (fun d => decide (d ∈ acc.st.failed)) then
    { acc with st := { acc.st with failed := insert o acc.st.failed },
               ups := acc.ups ++ [o] }
  else if deps.all (fun d => decide (d ∉ objects) || decide (d ∈ acc.st.finished)) then
    { acc with st := { acc.st with started := insert o acc.st.started },
               launch := acc.launch ++ [o] }
  else acc

/-- The `for obj in pending` loop of `feed_queue`, over an enumeration `pend`
of the pending set. -/
def feedAux [DecidableEq α] (objects : List α) (get_deps : α → List α)
    (pend : List α) (st : State α) : FeedAcc α :=
  pend.foldl (feedStep objects get_deps) ⟨st, [], []⟩

/-- The `(obj, None, UpstreamError())` tuple put by `feed_queue`. -/
def upEvent (o : α) : QItem α ρ := .ev ⟨o, none, some .upstream⟩

/-- One call of `feed_queue`: the updated state, the items put on the
`results` queue (upstream events in pass order, then `STOP` if
`state.is_done()`), and the objects whose producer threads were started. -/
def feed_queue [DecidableEq α] (objects : List α) (get_deps : α → List α)
    (pend : List α) (st : State α) : State α × List (QItem α ρ) × List α :=
  let r := feedAux objects get_deps pend st
  (r.st, r.ups.map upEvent ++ (if r.st.is_done then [.stop] else []), r.launch)

/-- A configuration of the running system: the scheduling state, the FIFO
`results` queue, the started workers whose outcome has not yet been enqueued,
the events yielded so far by `parallel_execute_iter`, and whether the loop has
exited via `STOP`. -/
structure Config (α ρ : Type) where
  state : State α
  queue : List (QItem α ρ)
  inflight : List α
  events : List (OutEvent α ρ)
  stopped : Bool
deriving DecidableEq

/-- `results.get(timeout=0.1)` and the code after it: on `Empty` nothing
changes (`continue`); on `STOP` the loop breaks; on a real event the object is
added to `finished` (no exception) or `failed` (exception) and the event is
yielded. -/
def consume [DecidableEq α] (c : Config α ρ) : Config α ρ :=
  match c.queue with
  | [] => c
  | .stop :: rest => { c with queue := rest, stopped := true }
  | .ev e :: rest =>
    { c with queue := rest,
             state := if e.err = none
               then { c.state with finished := insert e.obj c.state.finished }
               else { c.state with failed := insert e.obj c.state.failed },
             events := c.events ++ [e] }

/-- `pend` is a legal iteration order of `state.pending()`: duplicate-free and
with exactly the members of the pending set. -/
def PendEnum [DecidableEq α] (st : State α) (pend : List α) : Prop :=
  pend.Nodup ∧ pend.toFinset = st.pending

instance [DecidableEq α] (st : State α) (pend : List α) :
    Decidable (PendEnum st pend) := by
  unfold PendEnum
  infer_instance

/-- One iteration of the `while True` loop of `parallel_execute_iter`:
`feed_queue` (state update, queue puts, thread starts) followed by one
`results.get`. -/
def tickResult [DecidableEq α] (objects : List α) (get_deps : α → List α)
    (pend : List α) (c : Config α ρ) : Config α ρ :=
  let r := feed_queue objects get_deps pend c.state
  consume { c with state := r.1, queue := c.queue ++ r.2.1,
                   inflight := c.inflight ++ r.2.2 }

/-- The small-step relation of the run: a finished worker delivering its
outcome onto the queue, or one coordinator loop iteration. -/
inductive Step [DecidableEq α] (objects : List α) (func : α → Except PyExc ρ)
    (get_deps : α → List α) : Config α ρ → Config α ρ → Prop where
  | deliver (c : Config α ρ) (o : α) (ho : o ∈ c.inflight) (hs : c.stopped = false) :
      Step objects func get_deps c
        { c with inflight := c.inflight.erase o,
                 queue := c.queue ++ [.ev (producer func o)] }
  | tick (c : Config α ρ) (pend : List α) (hp : PendEnum c.state pend)
      (hs : c.stopped = false) :
      Step objects func get_deps c (tickResult objects get_deps pend c)

/-- The initial configuration of `parallel_execute_iter objects func get_deps`. -/
def init (objects : List α) : Config α ρ :=
  ⟨⟨objects, ∅, ∅, ∅⟩, [], [], [], false⟩

/-- Configurations reachable by the run. -/
def Reach [DecidableEq α] (objects : List α) (func : α → Except PyExc ρ)
    (get_deps : α → List α) (c : Config α ρ) : Prop :=
  Relation.ReflTransGen (Step objects func get_deps) (init objects) c

/-! ### The progress writer (`ParallelStreamWriter`) -/

/-- The ESC character used in the cursor-control sequences. -/
def esc : String := "\x1b"

/-- Python's `list.index`: the index of the first occurrence, or `none` where
the source raises `ValueError`. -/
def listIndex [DecidableEq β] (x : β) : List β → Option Nat
  | [] => none
  | y :: ys => if y = x then some 0 else (listIndex x ys).map (· + 1)

/-- `ParallelStreamWriter.initialize` (here `pswRegister`): with `msg = none`
it is a no-op; otherwise it appends the name to `lines` and writes
`"<msg> <name> ... \r\n"`.  Returns the new registry and the written
strings. -/
def pswRegister (msg : Option String) (lines : List String) (name : String) :
    List String × List String :=
  match msg with
  | none => (lines, [])
  | some m => (lines ++ [name], [m ++ " " ++ name ++ " ... " ++ "\r\n"])

/-- `ParallelStreamWriter.write`: with `msg = none` a no-op; otherwise locate
the first registration of `name`, let `diff = len(lines) - position`, and
write, in order: cursor up `diff` (`ESC[<diff>A`), erase line (`ESC[2K` plus
`\r`), `"<msg> <name> ... <status>"` plus `\r`, cursor down `diff`
(`ESC[<diff>B`).  `none` is the `ValueError` raised when `name` was never
registered. -/
def pswWrite (msg : Option String) (lines : List String) (name status : String) :
    Option (List String) :=
  match msg with
  | none => some []
  | some m =>
    match listIndex name lines with
    | none => none
    | some i =>
      some [esc ++ "[" ++ toString (lines.length - i) ++ "A",
            esc ++ "[2K" ++ "\r",
            m ++ " " ++ name ++ " ... " ++ status ++ "\r",
            esc ++ "[" ++ toString (lines.length - i) ++ "B"]

/-- The strings one `writer.write` call emits inside `parallel_execute`; every
event object there was registered up front, so the `ValueError` branch is
unreachable and rendered as no output. -/
def pswWriteOut (msg : Option String) (lines : List String) (name status : String) :
    List String :=
  (pswWrite msg lines name status).getD []

/-! ### The run aggregator (`parallel_execute`) -/

/-- A value of the `errors` dict of `parallel_execute`: `exception.explanation`
and `exception.msg` are strings, the unexpected branch stores the exception
object itself. -/
inductive ErrVal where
  | str (s : String)
  | exc (e : PyExc)
deriving DecidableEq

/-- Rendering of an `errors` value in the `"\nERROR: for ..."` summary line
(`"{}".format(v)`). -/
def ErrVal.render : ErrVal → String
  | .str s => s
  | .exc e => e.asStr

/-- `errors[k] = v` on a Python dict kept as an insertion-ordered association
list: overwrite in place, or append. -/
def dictInsert (k : String) (v : ErrVal) :
    List (String × ErrVal) → List (String × ErrVal)
  | [] => [(k, v)]
  | p :: rest => if p.1 = k then (k, v) :: rest else p :: dictInsert k v rest

/-- `errors[k]` lookup. -/
def lookupErr (k : String) : List (String × ErrVal) → Option ErrVal
  | [] => none
  | p :: rest => if p.1 = k then some p.2 else lookupErr k rest

/-- The state of the `for obj, result, exception in events` loop of
`parallel_execute`: collected results, the `errors` dict, the remembered
`error_to_reraise`, and everything written to the output stream so far. -/
structure AggState (ρ : Type) where
  results : List (Option ρ)
  errors : List (String × ErrVal)
  toReraise : Option PyExc
  out : List String
deriving DecidableEq

/-- The body of the event loop of `parallel_execute`: the
`if exception is None / isinstance(...)` chain. -/
def handleEvent (get_name : α → String) (msg : Option String)
    (lines : List String) (s : AggState ρ) (e : OutEvent α ρ) : AggState ρ :=
  match e.err with
  | none =>
    { s with out := s.out ++ pswWriteOut msg lines (get_name e.obj) "done",
             results := s.results ++ [e.res] }
  | some (.api expl) =>
    { s with errors := dictInsert (get_name e.obj) (.str expl) s.errors,
             out := s.out ++ pswWriteOut msg lines (get_name e.obj) "error" }
  | some (.opFailed m) =>
    { s with errors := dictInsert (get_name e.obj) (.str m) s.errors,
             out := s.out ++ pswWriteOut msg lines (get_name e.obj) "error" }
  | some .upstream =>
    { s with out := s.out ++ pswWriteOut msg lines (get_name e.obj) "error" }
  | some (.other d) =>
    { s with errors := dictInsert (get_name e.obj) (.exc (.other d)) s.errors,
             toReraise := some (.other d) }

/-- The event loop of `parallel_execute` from a given loop state. -/
def aggRun (get_name : α → String) (msg : Option String) (lines : List String)
    (s : AggState ρ) (events : List (OutEvent α ρ)) : AggState ρ :=
  events.foldl (handleEvent get_name msg lines) s

/-- The display-line registry after `writer.initialize(get_name(obj))` for
every object (empty when progress display is disabled). -/
def aggLines (objects : List α) (get_name : α → String)
    (msg : Option String) : List String :=
  match msg with
  | none => []
  | some _ => objects.map get_name

/-- The registration lines written before scheduling begins. -/
def aggRegisterOut (objects : List α) (get_name : α → String)
    (msg : Option String) : List String :=
  match msg with
  | none => []
  | some m => objects.map (fun o => m ++ " " ++ get_name o ++ " ... " ++ "\r\n")

/-- The loop state of `parallel_execute` after draining `events`. -/
def aggStateOf (objects : List α) (get_name : α → String) (msg : Option String)
    (events : List (OutEvent α ρ)) : AggState ρ :=
  aggRun get_name msg (aggLines objects get_name msg)
    ⟨[], [], none, aggRegisterOut objects get_name msg⟩ events

/-- One `"\nERROR: for <name>  <value>\n"` summary line. -/
def summaryLine (n : String) (v : ErrVal) : String :=
  "\n" ++ "ERROR: for " ++ n ++ "  " ++ v.render ++ "\n"

/-- The summary block written after the run has drained: one line per
`errors` entry. -/
def runSummary (s : AggState ρ) : List String :=
  s.errors.map (fun p => summaryLine p.1 p.2)

/-- `parallel_execute`, given the events the iterator yields: everything
written to the stream (status lines, then the summary block), and either
`raise error_to_reraise` or the returned `(results, errors)` pair. -/
def parallel_execute [DecidableEq α] (objects : List α) (get_name : α → String)
    (msg : Option String) (events : List (OutEvent α ρ)) :
    List String × Except PyExc (List (Option ρ) × List (String × ErrVal)) :=
  let s := aggStateOf objects get_name msg events
  (s.out ++ runSummary s,
   match s.toReraise with
   | some e => .error e
   | none => .ok (s.results, s.errors))

/-- The unexpected (re-raisable) error carried by an event, if any: an
exception that is none of `APIError`, `OperationFailedError`,
`UpstreamError`. -/
def unexpectedOf (e : OutEvent α ρ) : Option PyExc :=
  match e.err with
  | some (.other d) => some (.other d)
  | _ => none

/-- All unexpected errors of a run, in yield order. -/
def unexpectedErrs (events : List (OutEvent α ρ)) : List PyExc :=
  events.filterMap unexpectedOf

/-- The `(name, value)` entry an event writes into the `errors` dict, if
any. -/
def entryOf (get_name : α → String) (e : OutEvent α ρ) :
    Option (String × ErrVal) :=
  match e.err with
  | some (.api expl) => some (get_name e.obj, .str expl)
  | some (.opFailed m) => some (get_name e.obj, .str m)
  | some (.other d) => some (get_name e.obj, .exc (.other d))
  | _ => none

/-- The `errors`-dict values written for key `k` over a run, in write order. -/
def errEntriesFor (get_name : α → String) (k : String)
    (events : List (OutEvent α ρ)) : List ErrVal :=
  ((events.filterMap (entryOf get_name)).filter (fun p => decide (p.1 = k))).map
    Prod.snd

/-! ### Acyclicity, cycles, and run bookkeeping used by the theorems -/

/-- The dependency relation restricted to the universe is acyclic: every
nonempty subset of the universe has a member none of whose dependencies lies
in the subset.  (For a finite universe this is exactly the absence of a
dependency cycle.) -/
def AcyclicOn [DecidableEq α] (objects : List α) (get_deps : α → List α) : Prop :=
  ∀ S ∈ objects.toFinset.powerset, S.Nonempty → ∃ o ∈ S, ∀ d ∈ get_deps o, d ∉ S

instance [DecidableEq α] (objects : List α) (get_deps : α → List α) :
    Decidable (AcyclicOn objects get_deps) := by
  unfold AcyclicOn
  infer_instance

/-- Every object that has been handed to a worker or failed is accounted for
by exactly one token: in flight, on the queue, or already yielded.  The
concatenation keeps one entry per outcome. -/
def tokens (c : Config α ρ) : List α :=
  c.inflight ++ c.queue.filterMap QItem.obj? ++ c.events.map OutEvent.obj

/-- Number of yielded events for an object. -/
def countE (events : List (OutEvent α ρ)) [DecidableEq α] (o : α) : Nat :=
  (events.map OutEvent.obj).count o

/-! ### Concrete instances used by the example runs -/

/-- `get_deps` of the two-object chain: `1` depends on `0`. -/
def gdChain : Nat → List Nat := fun n => if n = 1 then [0] else []

/-- A dependency function with no dependencies (`_no_deps`). -/
def gdNone : Nat → List Nat := fun _ => []

/-- A work function that always succeeds. -/
def fOk : Nat → Except PyExc Nat := fun _ => .ok 0

/-- Decimal display names for the example runs. -/
def natName : Nat → String := fun n => toString n

/-- Cycle example: `1` depends on itself and on `2`. -/
def gdCyc : Nat → List Nat := fun n => if n = 1 then [1, 2] else []

/-- Work function for the cycle example: `2` raises an unexpected error. -/
def fCyc : Nat → Except PyExc Nat :=
  fun n => if n = 2 then .error (.other "x") else .ok 0

/-- The configuration right after the `feed_queue` call of one loop iteration,
before the `results.get`. -/
def feedApply [DecidableEq α] (objects : List α) (get_deps : α → List α)
    (pend : List α) (c : Config α ρ) : Config α ρ :=
  let r := feed_queue (ρ := ρ) objects get_deps pend c.state
  { c with state := r.1, queue := c.queue ++ r.2.1, inflight := c.inflight ++ r.2.2 }

/-- Progress measure of a configuration: positive while the loop runs, and
strictly decreased by every productive step of the canonical schedule. -/
def phi [DecidableEq α] (c : Config α ρ) : Nat :=
  if c.stopped then 0
  else 1 + 3 * (c.state.objects.toFinset \ (c.state.started ∪ c.state.failed)).card
    + 2 * c.inflight.length + (c.queue.filterMap QItem.obj?).length

/-- The run invariant: everything `parallel_execute_iter` maintains across
deliveries and loop iterations. -/
structure Inv [DecidableEq α] (objects : List α) (func : α → Except PyExc ρ)
    (get_deps : α → List α) (c : Config α ρ) : Prop where
  objs : c.state.objects = objects
  started_sub : c.state.started ⊆ objects.toFinset
  failed_sub : c.state.failed ⊆ objects.toFinset
  fin_started : c.state.finished ⊆ c.state.started
  fin_failed : ∀ o ∈ c.state.finished, o ∉ c.state.failed
  tok_nodup : (tokens c).Nodup
  tok_iff : ∀ o, o ∈ tokens c ↔ (o ∈ c.state.started ∨ o ∈ c.state.failed)
  inflight_inv : ∀ o ∈ c.inflight,
    o ∈ c.state.started ∧ o ∉ c.state.finished ∧ o ∉ c.state.failed
  queue_started : ∀ e : OutEvent α ρ, QItem.ev e ∈ c.queue → e.obj ∈ c.state.started →
    e = producer func e.obj ∧ e.obj ∉ c.state.finished ∧ e.obj ∉ c.state.failed
  queue_unstarted : ∀ e : OutEvent α ρ, QItem.ev e ∈ c.queue → e.obj ∉ c.state.started →
    e = ⟨e.obj, none, some .upstream⟩ ∧ e.obj ∈ c.state.failed
  ev_fin : ∀ e ∈ c.events, e.err = none → e.obj ∈ c.state.finished
  ev_fail : ∀ e ∈ c.events, e.err ≠ none → e.obj ∈ c.state.failed
  stop_done : QItem.stop ∈ c.queue → c.state.is_done = true
  stop_tail : ∃ q1 q2, c.queue = q1 ++ q2 ∧ QItem.stop ∉ q1 ∧ ∀ q ∈ q2, q = QItem.stop
  started_deps : ∀ o ∈ c.state.started, ∀ d ∈ get_deps o, d ∈ objects →
    d ∈ c.state.finished
  stopped_done : c.stopped = true → c.state.is_done = true
  stopped_events : c.stopped = true → (c.events.map OutEvent.obj).Nodup ∧
    ∀ o, o ∈ c.events.map OutEvent.obj ↔ o ∈ objects

/-- What one `feed_queue` pass over `pend` starting from `st` guarantees. -/
structure FeedSpec [DecidableEq α] (objects : List α) (get_deps : α → List α)
    (pend : List α) (st : State α) (r : FeedAcc α) : Prop where
  objs : r.st.objects = st.objects
  fin : r.st.finished = st.finished
  started_eq : r.st.started = st.started ∪ r.launch.toFinset
  failed_eq : r.st.failed = st.failed ∪ r.ups.toFinset
  launch_mem : ∀ o ∈ r.launch, o ∈ pend
  ups_mem : ∀ o ∈ r.ups, o ∈ pend
  launch_adm : ∀ o ∈ r.launch, ∀ d ∈ get_deps o, d ∉ objects ∨ d ∈ st.finished
  ups_cause : ∀ o ∈ r.ups, ∃ d ∈ get_deps o, d ∈ r.st.failed
  ups_complete : ∀ o ∈ pend, (∃ d ∈ get_deps o, d ∈ st.failed) → o ∈ r.ups
  trichot : ∀ o ∈ pend, o ∈ r.ups ∨ o ∈ r.launch ∨
      ((∀ d ∈ get_deps o, d ∉ st.failed) ∧ ∃ d ∈ get_deps o, d ∈ objects ∧ d ∉ st.finished)
  tok : pend.Nodup → (r.ups ++ r.launch).Nodup

variable {α ρ : Type} [DecidableEq α]

theorem feedStep_shift (objects : List α) (get_deps : α → List α)
    (st : State α) (us ls : List α) (o : α) :
    feedStep objects get_deps ⟨st, us, ls⟩ o =
      ⟨(feedStep objects get_deps ⟨st, [], []⟩ o).st,
       us ++ (feedStep objects get_deps ⟨st, [], []⟩ o).ups,
       ls ++ (feedStep objects get_deps ⟨st, [], []⟩ o).launch⟩ := by
  simp only [feedStep]
  split
  · simp
  · split <;> simp

theorem feedStep_up (objects : List α) (get_deps : α → List α) (st : State α)
    (o : α) (h1 : (get_deps o).any (fun d => decide (d ∈ st.failed)) = true) :
    feedStep objects get_deps ⟨st, [], []⟩ o =
      ⟨{ st with failed := insert o st.failed }, [o], []⟩ := by
  simp only [feedStep, h1]; rfl

theorem feedStep_launch (objects : List α) (get_deps : α → List α) (st : State α)
    (o : α) (h1 : ¬ (get_deps o).any (fun d => decide (d ∈ st.failed)) = true)
    (h2 : (get_deps o).all
      (fun d => decide (d ∉ objects) || decide (d ∈ st.finished)) = true) :
    feedStep objects get_deps ⟨st, [], []⟩ o =
      ⟨{ st with started := insert o st.started }, [], [o]⟩ := by
  simp only [feedStep]
  rw [if_neg h1, if_pos h2]
  simp

theorem feedStep_skip (objects : List α) (get_deps : α → List α) (st : State α)
    (o : α) (h1 : ¬ (get_deps o).any (fun d => decide (d ∈ st.failed)) = true)
    (h2 : ¬ (get_deps o).all
      (fun d => decide (d ∉ objects) || decide (d ∈ st.finished)) = true) :
    feedStep objects get_deps ⟨st, [], []⟩ o = ⟨st, [], []⟩ := by
  simp only [feedStep]
  rw [if_neg h1, if_neg h2]

theorem feedFold_shift (objects : List α) (get_deps : α → List α)
    (pend : List α) :
    ∀ (st : State α) (us ls : List α),
      pend.foldl (feedStep objects get_deps) ⟨st, us, ls⟩ =
        ⟨(feedAux objects get_deps pend st).st,
         us ++ (feedAux objects get_deps pend st).ups,
         ls ++ (feedAux objects get_deps pend st).launch⟩ := by
  induction pend with
  | nil => intro st us ls; simp [feedAux]
  | cons o rest ih =>
    intro st us ls
    simp only [feedAux, List.foldl_cons]
    rw [feedStep_shift objects get_deps st us ls o]
    generalize feedStep objects get_deps ⟨st, [], []⟩ o = r0
    obtain ⟨st0, u0, l0⟩ := r0
    have h1 := ih st0 (us ++ u0) (ls ++ l0)
    have h2 := ih st0 u0 l0
    simp only [feedAux] at h1 h2
    rw [h1, h2]
    simp [List.append_assoc]

theorem feedAux_cons (objects : List α) (get_deps : α → List α)
    (o : α) (rest : List α) (st : State α) :
    feedAux objects get_deps (o :: rest) st =
      ⟨(feedAux objects get_deps rest (feedStep objects get_deps ⟨st, [], []⟩ o).st).st,
       (feedStep objects get_deps ⟨st, [], []⟩ o).ups ++
         (feedAux objects get_deps rest (feedStep objects get_deps ⟨st, [], []⟩ o).st).ups,
       (feedStep objects get_deps ⟨st, [], []⟩ o).launch ++
         (feedAux objects get_deps rest (feedStep objects get_deps ⟨st, [], []⟩ o).st).launch⟩ := by
  conv_lhs => simp only [feedAux, List.foldl_cons]
  generalize feedStep objects get_deps ⟨st, [], []⟩ o = r0
  obtain ⟨st0, u0, l0⟩ := r0
  have h := feedFold_shift objects get_deps rest st0 u0 l0
  simp only [feedAux] at h ⊢
  exact h

theorem feedAux_spec (objects : List α) (get_deps : α → List α) :
    ∀ (pend : List α) (st : State α),
      FeedSpec objects get_deps pend st (feedAux objects get_deps pend st) := by
  intro pend
  induction pend with
  | nil =>
    intro st
    refine ⟨rfl, rfl, by simp [feedAux], by simp [feedAux], ?_, ?_, ?_, ?_, ?_, ?_, ?_⟩ <;>
      simp [feedAux]
  | cons o rest ih =>
    intro st
    by_cases h1 : (get_deps o).any (fun d => decide (d ∈ st.failed)) = true
    · -- upstream shortcut branch
      rw [feedAux_cons, feedStep_up objects get_deps st o h1]
      obtain ⟨d, hd, hdf⟩ := List.any_eq_true.mp h1
      replace hdf : d ∈ st.failed := of_decide_eq_true hdf
      have r := ih { st with failed := insert o st.failed }
      set A := feedAux objects get_deps rest { st with failed := insert o st.failed } with hA
      refine ⟨r.objs, r.fin, ?_, ?_, ?_, ?_, ?_, ?_, ?_, ?_, ?_⟩
      · rw [r.started_eq]; rfl
      · rw [r.failed_eq]
        show insert o st.failed ∪ A.ups.toFinset = st.failed ∪ (o :: A.ups).toFinset
        rw [List.toFinset_cons, Finset.insert_union, Finset.union_insert]
      · intro x hx
        exact List.mem_cons_of_mem _ (r.launch_mem x hx)
      · intro x hx
        rcases List.mem_cons.mp hx with h | h
        · exact h ▸ List.mem_cons_self _ _
        · exact List.mem_cons_of_mem _ (r.ups_mem x h)
      · intro x hx e he
        have := r.launch_adm x hx e he
        simpa using this
      · intro x hx
        rcases List.mem_cons.mp hx with rfl | h
        · refine ⟨d, hd, ?_⟩
          rw [r.failed_eq]
          exact Finset.mem_union_left _ (Finset.mem_insert_of_mem hdf)
        · exact r.ups_cause x h
      · intro x hx hex
        rcases List.mem_cons.mp hx with rfl | h
        · exact List.mem_cons_self _ _
        · refine List.mem_cons_of_mem _ (r.ups_complete x h ?_)
          obtain ⟨e, he, hef⟩ := hex
          exact ⟨e, he, by simp [hef]⟩
      · intro x hx
        rcases List.mem_cons.mp hx with rfl | h
        · exact Or.inl (List.mem_cons_self _ _)
        · rcases r.trichot x h with h' | h' | h'
          · exact Or.inl (List.mem_cons_of_mem _ h')
          · exact Or.inr (Or.inl h')
          · refine Or.inr (Or.inr ⟨?_, h'.2⟩)
            intro e he hef
            have := h'.1 e he
            simp at this
            exact this.2 hef
      · intro hnd
        have hnd' := List.nodup_cons.mp hnd
        have htok := r.tok hnd'.2
        show (o :: (A.ups ++ A.launch)).Nodup
        refine List.nodup_cons.mpr ⟨?_, htok⟩
        intro hmem
        rcases List.mem_append.mp hmem with h | h
        · exact hnd'.1 (r.ups_mem o h)
        · exact hnd'.1 (r.launch_mem o h)
    · -- no failed dependency at this object's turn
      have h1' : ∀ e ∈ get_deps o, e ∉ st.failed := by
        intro e he hef
        exact h1 (List.any_eq_true.mpr ⟨e, he, decide_eq_true hef⟩)
      by_cases h2 : (get_deps o).all
          (fun d => decide (d ∉ objects) || decide (d ∈ st.finished)) = true
      · -- launch branch
        rw [feedAux_cons, feedStep_launch objects get_deps st o h1 h2]
        have r := ih { st with started := insert o st.started }
        set A := feedAux objects get_deps rest { st with started := insert o st.started }
          with hA
        refine ⟨r.objs, r.fin, ?_, ?_, ?_, ?_, ?_, ?_, ?_, ?_, ?_⟩
        · rw [r.started_eq]
          show insert o st.started ∪ A.launch.toFinset
            = st.started ∪ (o :: A.launch).toFinset
          rw [List.toFinset_cons, Finset.insert_union, Finset.union_insert]
        · rw [r.failed_eq]; rfl
        · intro x hx
          rcases List.mem_cons.mp hx with h | h
          · exact h ▸ List.mem_cons_self _ _
          · exact List.mem_cons_of_mem _ (r.launch_mem x h)
        · intro x hx
          exact List.mem_cons_of_mem _ (r.ups_mem x hx)
        · intro x hx e he
          rcases List.mem_cons.mp hx with rfl | h
          · have := List.all_eq_true.mp h2 e he
            simp only [Bool.or_eq_true, decide_eq_true_eq] at this
            exact this
          · have := r.launch_adm x h e he
            simpa using this
        · intro x hx
          exact r.ups_cause x hx
        · intro x hx hex
          rcases List.mem_cons.mp hx with h | h
          · subst h
            obtain ⟨e, he, hef⟩ := hex
            exact absurd hef (h1' e he)
          · exact r.ups_complete x h hex
        · intro x hx
          rcases List.mem_cons.mp hx with h | h
          · subst h
            exact Or.inr (Or.inl (List.mem_cons_self _ _))
          · rcases r.trichot x h with h' | h' | h'
            · exact Or.inl h'
            · exact Or.inr (Or.inl (List.mem_cons_of_mem _ h'))
            · exact Or.inr (Or.inr h')
        · intro hnd
          have hnd' := List.nodup_cons.mp hnd
          have htok := r.tok hnd'.2
          show (A.ups ++ o :: A.launch).Nodup
          rw [List.nodup_middle]
          refine List.nodup_cons.mpr ⟨?_, htok⟩
          intro hmem
          rcases List.mem_append.mp hmem with h | h
          · exact hnd'.1 (r.ups_mem o h)
          · exact hnd'.1 (r.launch_mem o h)
      · -- left pending
        rw [feedAux_cons, feedStep_skip objects get_deps st o h1 h2]
        have r := ih st
        refine ⟨r.objs, r.fin, r.started_eq, r.failed_eq, ?_, ?_, r.launch_adm,
          r.ups_cause, ?_, ?_, ?_⟩
        · intro x hx; exact List.mem_cons_of_mem _ (r.launch_mem x hx)
        · intro x hx; exact List.mem_cons_of_mem _ (r.ups_mem x hx)
        · intro x hx hex
          rcases List.mem_cons.mp hx with h | h
          · subst h
            obtain ⟨e, he, hef⟩ := hex
            exact absurd hef (h1' e he)
          · exact r.ups_complete x h hex
        · intro x hx
          rcases List.mem_cons.mp hx with rfl | h
          · refine Or.inr (Or.inr ⟨h1', ?_⟩)
            by_contra hno
            push_neg at hno
            apply h2
            rw [List.all_eq_true]
            intro e he
            simp only [Bool.or_eq_true, decide_eq_true_eq]
            by_cases heo : e ∈ objects
            · exact Or.inr (hno e he heo)
            · exact Or.inl heo
          · rcases r.trichot x h with h' | h' | h'
            · exact Or.inl h'
            · exact Or.inr (Or.inl h')
            · exact Or.inr (Or.inr h')
        · intro hnd
          exact r.tok (List.nodup_cons.mp hnd).2

theorem producer_obj (func : α → Except PyExc ρ) (o : α) :
    (producer func o).obj = o := by
  unfold producer; cases func o <;> rfl

theorem upEvent_ne_stop (o : α) : upEvent (ρ := ρ) o ≠ QItem.stop := by
  simp [upEvent]

theorem filterMap_upEvents (l : List α) :
    ((l.map (upEvent (ρ := ρ))).filterMap QItem.obj?) = l := by
  induction l with
  | nil => rfl
  | cons a t ih => simp [upEvent, QItem.obj?, List.filterMap_cons] at ih ⊢; exact ih

theorem filterMap_stopIf (p : Prop) [Decidable p] :
    ((if p then [QItem.stop] else []).filterMap (QItem.obj? (α := α) (ρ := ρ))) = [] := by
  split <;> rfl

theorem mem_pending_iff {s : State α} {o : α} :
    o ∈ s.pending ↔
      o ∈ s.objects.toFinset ∧ o ∉ s.started ∧ o ∉ s.finished ∧ o ∉ s.failed := by
  simp only [State.pending, Finset.mem_sdiff]
  tauto

theorem is_done_of_le {s t : State α} (h : s.is_done = true)
    (ho : t.objects = s.objects) (hf : s.finished ⊆ t.finished)
    (hg : s.failed ⊆ t.failed) : t.is_done = true := by
  simp only [State.is_done, decide_eq_true_eq] at h ⊢
  have h1 := Finset.card_le_card hf
  have h2 := Finset.card_le_card hg
  rw [ho]
  omega

theorem done_cover {objects : List α} {func : α → Except PyExc ρ}
    {get_deps : α → List α} {c : Config α ρ}
    (h : Inv objects func get_deps c) (hd : c.state.is_done = true) :
    c.state.finished ∪ c.state.failed = objects.toFinset := by
  have hsub : c.state.finished ∪ c.state.failed ⊆ objects.toFinset :=
    Finset.union_subset (h.fin_started.trans h.started_sub) h.failed_sub
  have hdisj : Disjoint c.state.finished c.state.failed :=
    Finset.disjoint_left.mpr (fun a ha hb => h.fin_failed a ha hb)
  have hcard : objects.toFinset.card ≤ (c.state.finished ∪ c.state.failed).card := by
    rw [Finset.card_union_of_disjoint hdisj]
    simp only [State.is_done, decide_eq_true_eq, h.objs] at hd
    have h1 : objects.toFinset.card ≤ objects.length := objects.toFinset_card_le
    omega
  exact (Finset.eq_of_subset_of_card_le hsub hcard).symm ▸ rfl

theorem done_pending_empty {objects : List α} {func : α → Except PyExc ρ}
    {get_deps : α → List α} {c : Config α ρ}
    (h : Inv objects func get_deps c) (hd : c.state.is_done = true) :
    c.state.pending = ∅ := by
  have hcov := done_cover h hd
  ext x
  simp only [Finset.not_mem_empty, iff_false]
  intro hx
  rw [mem_pending_iff] at hx
  have : x ∈ c.state.finished ∪ c.state.failed := by
    rw [hcov, ← h.objs]; exact hx.1
  rcases Finset.mem_union.mp this with h' | h'
  · exact hx.2.2.1 h'
  · exact hx.2.2.2 h'

theorem tickResult_eq (objects : List α) (get_deps : α → List α)
    (pend : List α) (c : Config α ρ) :
    tickResult objects get_deps pend c = consume (feedApply objects get_deps pend c) := rfl

theorem feedApply_state (objects : List α) (get_deps : α → List α)
    (pend : List α) (c : Config α ρ) :
    (feedApply (ρ := ρ) objects get_deps pend c).state =
      (feedAux objects get_deps pend c.state).st := rfl

theorem feedApply_queue (objects : List α) (get_deps : α → List α)
    (pend : List α) (c : Config α ρ) :
    (feedApply objects get_deps pend c).queue =
      c.queue ++ ((feedAux objects get_deps pend c.state).ups.map upEvent ++
        (if (feedAux objects get_deps pend c.state).st.is_done
          then [QItem.stop] else [])) := rfl

theorem feedApply_inflight (objects : List α) (get_deps : α → List α)
    (pend : List α) (c : Config α ρ) :
    (feedApply (ρ := ρ) objects get_deps pend c).inflight =
      c.inflight ++ (feedAux objects get_deps pend c.state).launch := rfl

theorem feedApply_events (objects : List α) (get_deps : α → List α)
    (pend : List α) (c : Config α ρ) :
    (feedApply (ρ := ρ) objects get_deps pend c).events = c.events := rfl

theorem feedApply_stopped (objects : List α) (get_deps : α → List α)
    (pend : List α) (c : Config α ρ) :
    (feedApply (ρ := ρ) objects get_deps pend c).stopped = c.stopped := rfl

theorem inv_feedApply {objects : List α} {func : α → Except PyExc ρ}
    {get_deps : α → List α} {c : Config α ρ} {pend : List α}
    (h : Inv objects func get_deps c) (hp : PendEnum c.state pend)
    (hs : c.stopped = false) :
    Inv objects func get_deps (feedApply objects get_deps pend c) := by
  obtain ⟨hnd, hpf⟩ := hp
  have r := feedAux_spec objects get_deps pend c.state
  set A := feedAux objects get_deps pend c.state with hA
  have hpend : ∀ x ∈ pend, x ∈ objects.toFinset ∧ x ∉ c.state.started ∧
      x ∉ c.state.finished ∧ x ∉ c.state.failed := by
    intro x hx
    have hx' : x ∈ c.state.pending := by rw [← hpf]; exact List.mem_toFinset.mpr hx
    have hm := mem_pending_iff.mp hx'
    exact ⟨by rw [← h.objs]; exact hm.1, hm.2.1, hm.2.2.1, hm.2.2.2⟩
  have hups : ∀ x ∈ A.ups, x ∈ objects.toFinset ∧ x ∉ c.state.started ∧
      x ∉ c.state.finished ∧ x ∉ c.state.failed := fun x hx => hpend x (r.ups_mem x hx)
  have hlau : ∀ x ∈ A.launch, x ∈ objects.toFinset ∧ x ∉ c.state.started ∧
      x ∉ c.state.finished ∧ x ∉ c.state.failed := fun x hx => hpend x (r.launch_mem x hx)
  have hdisjUL : A.ups.Disjoint A.launch := (List.nodup_append.mp (r.tok hnd)).2.2
  have hq : (feedApply objects get_deps pend c).queue =
      c.queue ++ (A.ups.map upEvent ++
        (if A.st.is_done then [QItem.stop] else [])) := by
    rw [feedApply_queue, ← hA]
  have hmemq : ∀ q : QItem α ρ, q ∈ (feedApply objects get_deps pend c).queue ↔
      (q ∈ c.queue ∨ (∃ x ∈ A.ups, q = upEvent x) ∨
        (A.st.is_done = true ∧ q = QItem.stop)) := by
    intro q
    rw [hq]
    simp only [List.mem_append, List.mem_map]
    constructor
    · rintro (hh | hh | hh)
      · exact Or.inl hh
      · obtain ⟨x, hx, rfl⟩ := hh
        exact Or.inr (Or.inl ⟨x, hx, rfl⟩)
      · split at hh
        · simp only [List.mem_singleton] at hh
          exact Or.inr (Or.inr ⟨by assumption, hh⟩)
        · simp at hh
    · rintro (hh | ⟨x, hx, rfl⟩ | ⟨hd, rfl⟩)
      · exact Or.inl hh
      · exact Or.inr (Or.inl ⟨x, hx, rfl⟩)
      · refine Or.inr (Or.inr ?_)
        rw [if_pos hd]
        simp
  have hperm : (tokens (feedApply objects get_deps pend c)).Perm
      ((A.ups ++ A.launch) ++ tokens c) := by
    rw [List.perm_iff_count]
    intro a
    simp only [tokens, feedApply_inflight, feedApply_events, hq, ← hA,
      List.filterMap_append, filterMap_upEvents, filterMap_stopIf, List.append_nil,
      List.count_append]
    omega
  have hULnotold : ∀ x, x ∈ A.ups ++ A.launch → x ∉ tokens c := by
    intro x hx hxt
    rcases (h.tok_iff x).mp hxt with hh | hh
    · rcases List.mem_append.mp hx with hu | hl
      · exact (hups x hu).2.1 hh
      · exact (hlau x hl).2.1 hh
    · rcases List.mem_append.mp hx with hu | hl
      · exact (hups x hu).2.2.2 hh
      · exact (hlau x hl).2.2.2 hh
  have hstate : (feedApply objects get_deps pend c).state = A.st := by
    rw [feedApply_state, ← hA]
  have hinfl : (feedApply objects get_deps pend c).inflight = c.inflight ++ A.launch := by
    rw [feedApply_inflight, ← hA]
  have hev : (feedApply objects get_deps pend c).events = c.events :=
    feedApply_events objects get_deps pend c
  have hstp : (feedApply objects get_deps pend c).stopped = c.stopped :=
    feedApply_stopped objects get_deps pend c
  refine ⟨?_, ?_, ?_, ?_, ?_, ?_, ?_, ?_, ?_, ?_, ?_, ?_, ?_, ?_, ?_, ?_, ?_⟩
  · rw [hstate, r.objs, h.objs]
  · rw [hstate, r.started_eq]
    refine Finset.union_subset h.started_sub ?_
    intro x hx
    rw [List.mem_toFinset] at hx
    exact (hlau x hx).1
  · rw [hstate, r.failed_eq]
    refine Finset.union_subset h.failed_sub ?_
    intro x hx
    rw [List.mem_toFinset] at hx
    exact (hups x hx).1
  · rw [hstate, r.fin, r.started_eq]
    exact h.fin_started.trans Finset.subset_union_left
  · rw [hstate, r.fin, r.failed_eq]
    intro o ho
    rw [Finset.mem_union]
    rintro (hh | hh)
    · exact h.fin_failed o ho hh
    · rw [List.mem_toFinset] at hh
      exact (hups o hh).2.2.1 ho
  · rw [List.Perm.nodup_iff hperm]
    exact List.Nodup.append (r.tok hnd) h.tok_nodup hULnotold
  · intro o
    rw [List.Perm.mem_iff hperm, hstate, r.started_eq, r.failed_eq]
    simp only [List.mem_append, Finset.mem_union, List.mem_toFinset, h.tok_iff o]
    tauto
  · intro o ho
    rw [hinfl] at ho
    rw [hstate, r.fin, r.started_eq, r.failed_eq]
    rcases List.mem_append.mp ho with hh | hh
    · obtain ⟨h1, h2, h3⟩ := h.inflight_inv o hh
      refine ⟨Finset.mem_union_left _ h1, h2, ?_⟩
      rw [Finset.mem_union]
      rintro (hf | hf)
      · exact h3 hf
      · rw [List.mem_toFinset] at hf
        exact (hups o hf).2.1 h1
    · refine ⟨Finset.mem_union_right _ (List.mem_toFinset.mpr hh), (hlau o hh).2.2.1, ?_⟩
      rw [Finset.mem_union]
      rintro (hf | hf)
      · exact (hlau o hh).2.2.2 hf
      · rw [List.mem_toFinset] at hf
        exact hdisjUL hf hh
  · intro e he hst
    rw [hmemq] at he
    rw [hstate, r.started_eq] at hst
    rcases he with he | ⟨x, hx, hex⟩ | ⟨_, hex⟩
    · rcases Finset.mem_union.mp hst with hst' | hst'
      · obtain ⟨h1, h2, h3⟩ := h.queue_started e he hst'
        refine ⟨h1, by rw [hstate, r.fin]; exact h2, ?_⟩
        rw [hstate, r.failed_eq, Finset.mem_union]
        rintro (hf | hf)
        · exact h3 hf
        · rw [List.mem_toFinset] at hf
          exact (hups e.obj hf).2.1 hst'
      · rw [List.mem_toFinset] at hst'
        by_cases hso : e.obj ∈ c.state.started
        · obtain ⟨h1, h2, h3⟩ := h.queue_started e he hso
          refine ⟨h1, by rw [hstate, r.fin]; exact h2, ?_⟩
          rw [hstate, r.failed_eq, Finset.mem_union]
          rintro (hf | hf)
          · exact h3 hf
          · rw [List.mem_toFinset] at hf
            exact (hups e.obj hf).2.1 hso
        · obtain ⟨_, h2⟩ := h.queue_unstarted e he hso
          exact absurd h2 (hlau e.obj hst').2.2.2
    · simp only [upEvent, QItem.ev.injEq] at hex
      subst hex
      rcases Finset.mem_union.mp hst with hst' | hst'
      · exact absurd hst' (hups x hx).2.1
      · rw [List.mem_toFinset] at hst'
        exact absurd hx (fun hx' => hdisjUL hx' hst')
    · exact absurd hex (by simp)
  · intro e he hst
    rw [hmemq] at he
    rw [hstate, r.started_eq] at hst
    have hst1 : e.obj ∉ c.state.started := fun hh => hst (Finset.mem_union_left _ hh)
    rcases he with he | ⟨x, hx, hex⟩ | ⟨_, hex⟩
    · obtain ⟨h1, h2⟩ := h.queue_unstarted e he hst1
      refine ⟨h1, ?_⟩
      rw [hstate, r.failed_eq]
      exact Finset.mem_union_left _ h2
    · simp only [upEvent, QItem.ev.injEq] at hex
      subst hex
      refine ⟨rfl, ?_⟩
      rw [hstate, r.failed_eq]
      exact Finset.mem_union_right _ (List.mem_toFinset.mpr hx)
    · exact absurd hex (by simp)
  · intro e he hee
    rw [hev] at he
    rw [hstate, r.fin]
    exact h.ev_fin e he hee
  · intro e he hee
    rw [hev] at he
    rw [hstate, r.failed_eq]
    exact Finset.mem_union_left _ (h.ev_fail e he hee)
  · intro hstop
    rw [hmemq] at hstop
    rw [hstate]
    rcases hstop with hh | ⟨x, _, hex⟩ | ⟨hd, _⟩
    · have hd := h.stop_done hh
      refine is_done_of_le hd ?_ ?_ ?_
      · rw [r.objs]
      · rw [r.fin]
      · rw [r.failed_eq]; exact Finset.subset_union_left
    · exact absurd hex.symm (upEvent_ne_stop x)
    · exact hd
  · by_cases hst : QItem.stop ∈ c.queue
    · have hd := h.stop_done hst
      have hpe : c.state.pending = ∅ := done_pending_empty h hd
      have hpnil : pend = [] := by
        rcases pend with _ | ⟨x, xs⟩
        · rfl
        · exfalso
          have : x ∈ c.state.pending := by
            rw [← hpf]; exact List.mem_toFinset.mpr (List.mem_cons_self x xs)
          rw [hpe] at this
          exact Finset.not_mem_empty x this
      have hAnil : A = ⟨c.state, [], []⟩ := by rw [hA, hpnil]; rfl
      obtain ⟨q1, q2, hq12, hq1, hq2⟩ := h.stop_tail
      refine ⟨q1, q2 ++ [QItem.stop], ?_, hq1, ?_⟩
      · rw [hq, hAnil]
        simp only [List.map_nil, List.nil_append]
        have : A.st.is_done = true := by rw [hAnil]; exact hd
        rw [hAnil] at this
        rw [if_pos this, hq12, List.append_assoc]
      · intro q hqm
        rcases List.mem_append.mp hqm with hh | hh
        · exact hq2 q hh
        · simpa using hh
    · obtain ⟨q1, q2, hq12, hq1, hq2⟩ := h.stop_tail
      have hq2nil : q2 = [] := by
        rcases q2 with _ | ⟨x, xs⟩
        · rfl
        · exfalso
          apply hst
          rw [hq12, hq2 x (List.mem_cons_self x xs)]
          exact List.mem_append.mpr (Or.inr (List.mem_cons_self _ _))
      refine ⟨c.queue ++ A.ups.map upEvent,
        (if A.st.is_done then [QItem.stop] else []), ?_, ?_, ?_⟩
      · rw [hq, List.append_assoc]
      · intro hin
        rcases List.mem_append.mp hin with hh | hh
        · exact hst hh
        · obtain ⟨x, _, hex⟩ := List.mem_map.mp hh
          exact upEvent_ne_stop x hex
      · intro q hqm
        split at hqm
        · simpa using hqm
        · simp at hqm
  · intro o ho d hd hdo
    rw [hstate, r.started_eq] at ho
    rw [hstate, r.fin]
    rcases Finset.mem_union.mp ho with hh | hh
    · exact h.started_deps o hh d hd hdo
    · rw [List.mem_toFinset] at hh
      rcases r.launch_adm o hh d hd with h' | h'
      · exact absurd hdo h'
      · exact h'
  · intro hstop
    rw [hstp] at hstop
    rw [hstop] at hs
    exact absurd hs (by simp)
  · intro hstop
    rw [hstp] at hstop
    rw [hstop] at hs
    exact absurd hs (by simp)

theorem inv_consume {objects : List α} {func : α → Except PyExc ρ}
    {get_deps : α → List α} {c : Config α ρ}
    (h : Inv objects func get_deps c) (hs : c.stopped = false) :
    Inv objects func get_deps (consume c) := by
  rcases hqe : c.queue with _ | ⟨q, rest⟩
  · have hcc : consume c = c := by rw [consume.eq_def, hqe]
    rw [hcc]; exact h
  rcases q with _ | e
  · -- STOP at the front: the loop breaks
    have hcc : consume c = { c with queue := rest, stopped := true } := by
      rw [consume.eq_def, hqe]
    have hsm : QItem.stop ∈ c.queue := by rw [hqe]; exact List.mem_cons_self _ _
    have hd := h.stop_done hsm
    have hcov := done_cover h hd
    obtain ⟨q1, q2, h12, h1, h2⟩ := h.stop_tail
    have hq1nil : q1 = [] := by
      rcases hq1e : q1 with _ | ⟨x, xs⟩
      · rfl
      · exfalso
        rw [hq1e] at h12 h1
        rw [hqe] at h12
        simp only [List.cons_append, List.cons.injEq] at h12
        exact h1 (h12.1 ▸ List.mem_cons_self x xs)
    have hrest_all : ∀ q ∈ rest, q = QItem.stop := by
      intro q hqm
      apply h2
      rw [hq1nil, List.nil_append] at h12
      have : q ∈ QItem.stop :: rest := List.mem_cons_of_mem _ hqm
      rw [← hqe, h12] at this
      exact this
    have hrest_fm : rest.filterMap QItem.obj? = [] := by
      rw [List.filterMap_eq_nil_iff]
      intro a ha
      rw [hrest_all a ha]
      rfl
    have hq_fm : c.queue.filterMap QItem.obj? = [] := by
      rw [hqe, List.filterMap_cons]
      simpa [QItem.obj?] using hrest_fm
    have hinfl_nil : ∀ o, o ∉ c.inflight := by
      intro o ho
      obtain ⟨h1', h2', h3'⟩ := h.inflight_inv o ho
      have : o ∈ c.state.finished ∪ c.state.failed := by
        rw [hcov]; exact h.started_sub h1'
      rcases Finset.mem_union.mp this with hh | hh
      · exact h2' hh
      · exact h3' hh
    have hevnd : (c.events.map OutEvent.obj).Nodup := by
      have hsub : (c.events.map OutEvent.obj).Sublist (tokens c) := by
        rw [tokens]
        exact List.sublist_append_right _ _
      exact hsub.nodup h.tok_nodup
    rw [hcc]
    refine ⟨h.objs, h.started_sub, h.failed_sub, h.fin_started, h.fin_failed, ?_, ?_,
      ?_, ?_, ?_, ?_, ?_, ?_, ?_, h.started_deps, ?_, ?_⟩
    · show (c.inflight ++ rest.filterMap QItem.obj? ++ c.events.map OutEvent.obj).Nodup
      have : tokens c =
          c.inflight ++ rest.filterMap QItem.obj? ++ c.events.map OutEvent.obj := by
        rw [tokens, hqe, List.filterMap_cons]
        rfl
      rw [← this]
      exact h.tok_nodup
    · intro o
      show o ∈ c.inflight ++ rest.filterMap QItem.obj? ++ c.events.map OutEvent.obj ↔ _
      have : tokens c =
          c.inflight ++ rest.filterMap QItem.obj? ++ c.events.map OutEvent.obj := by
        rw [tokens, hqe, List.filterMap_cons]
        rfl
      rw [← this]
      exact h.tok_iff o
    · exact h.inflight_inv
    · intro e' he' hst
      refine h.queue_started e' ?_ hst
      rw [hqe]
      exact List.mem_cons_of_mem _ he'
    · intro e' he' hst
      refine h.queue_unstarted e' ?_ hst
      rw [hqe]
      exact List.mem_cons_of_mem _ he'
    · exact h.ev_fin
    · exact h.ev_fail
    · intro _; exact hd
    · exact ⟨[], rest, rfl, by simp, hrest_all⟩
    · intro _; exact hd
    · intro _
      refine ⟨hevnd, ?_⟩
      intro o
      constructor
      · intro hmem
        have : o ∈ tokens c := by
          rw [tokens]
          exact List.mem_append.mpr (Or.inr hmem)
        rcases (h.tok_iff o).mp this with hh | hh
        · exact List.mem_toFinset.mp (h.started_sub hh)
        · exact List.mem_toFinset.mp (h.failed_sub hh)
      · intro hmem
        have hU : o ∈ c.state.finished ∪ c.state.failed := by
          rw [hcov]; exact List.mem_toFinset.mpr hmem
        have hsf : o ∈ c.state.started ∨ o ∈ c.state.failed := by
          rcases Finset.mem_union.mp hU with hh | hh
          · exact Or.inl (h.fin_started hh)
          · exact Or.inr hh
        have htok : o ∈ tokens c := (h.tok_iff o).mpr hsf
        rw [tokens] at htok
        rcases List.mem_append.mp htok with hh | hh
        · rcases List.mem_append.mp hh with hh' | hh'
          · exact absurd hh' (hinfl_nil o)
          · rw [hq_fm] at hh'
            exact absurd hh' (List.not_mem_nil o)
        · exact hh
  · -- real event at the front
    have heem : QItem.ev e ∈ c.queue := by rw [hqe]; exact List.mem_cons_self _ _
    have hobj_tok : e.obj ∈ tokens c := by
      rw [tokens]
      refine List.mem_append.mpr (Or.inl (List.mem_append.mpr (Or.inr ?_)))
      rw [hqe, List.filterMap_cons]
      simp [QItem.obj?]
    have hnd0 := h.tok_nodup
    rw [tokens, hqe, List.filterMap_cons] at hnd0
    simp only [QItem.obj?] at hnd0
    have hnd1 : (e.obj :: (c.inflight ++
        (rest.filterMap QItem.obj? ++ c.events.map OutEvent.obj))).Nodup := by
      rw [← List.nodup_middle]
      have : c.inflight ++ e.obj :: (rest.filterMap QItem.obj? ++ c.events.map OutEvent.obj)
          = c.inflight ++ (e.obj :: rest.filterMap QItem.obj?) ++ c.events.map OutEvent.obj := by
        simp
      rw [this]
      exact hnd0
    have hobj_not : e.obj ∉ c.inflight ++
        (rest.filterMap QItem.obj? ++ c.events.map OutEvent.obj) :=
      (List.nodup_cons.mp hnd1).1
    have hobj_ninfl : e.obj ∉ c.inflight := fun hh =>
      hobj_not (List.mem_append.mpr (Or.inl hh))
    have hobj_nrest : e.obj ∉ rest.filterMap QItem.obj? := fun hh =>
      hobj_not (List.mem_append.mpr (Or.inr (List.mem_append.mpr (Or.inl hh))))
    have hobj_nev : e.obj ∉ c.events.map OutEvent.obj := fun hh =>
      hobj_not (List.mem_append.mpr (Or.inr (List.mem_append.mpr (Or.inr hh))))
    have hrest_sub : ∀ e' : OutEvent α ρ, QItem.ev e' ∈ rest → QItem.ev e' ∈ c.queue := by
      intro e' he'
      rw [hqe]
      exact List.mem_cons_of_mem _ he'
    have hrest_ne : ∀ e' : OutEvent α ρ, QItem.ev e' ∈ rest → e'.obj ≠ e.obj := by
      intro e' he' hcon
      apply hobj_nrest
      rw [← hcon]
      exact List.mem_filterMap.mpr ⟨QItem.ev e', he', rfl⟩
    have hstop_rest : QItem.stop ∈ rest → c.state.is_done = true := by
      intro hsm
      apply h.stop_done
      rw [hqe]
      exact List.mem_cons_of_mem _ hsm
    have hstop_tail' : ∃ q1 q2, rest = q1 ++ q2 ∧ QItem.stop ∉ q1 ∧
        ∀ q ∈ q2, q = QItem.stop := by
      obtain ⟨q1, q2, h12, h1, h2⟩ := h.stop_tail
      rcases hq1e : q1 with _ | ⟨x, xs⟩
      · exfalso
        rw [hq1e, List.nil_append] at h12
        rw [hqe] at h12
        have : QItem.ev e ∈ q2 := by rw [← h12]; exact List.mem_cons_self _ _
        exact absurd (h2 _ this) (by simp)
      · rw [hq1e] at h12 h1
        rw [hqe] at h12
        simp only [List.cons_append, List.cons.injEq] at h12
        refine ⟨xs, q2, h12.2, ?_, h2⟩
        intro hcon
        exact h1 (List.mem_cons_of_mem _ hcon)
    have hnd1' : (c.inflight ++ rest.filterMap QItem.obj? ++
        (c.events.map OutEvent.obj ++ [e.obj])).Nodup := by
      have hp : (c.inflight ++ rest.filterMap QItem.obj? ++
          (c.events.map OutEvent.obj ++ [e.obj])).Perm
          (e.obj :: (c.inflight ++
            (rest.filterMap QItem.obj? ++ c.events.map OutEvent.obj))) := by
        rw [List.perm_iff_count]
        intro a
        by_cases hae : a = e.obj
        · subst hae
          simp only [List.count_append, List.count_cons]
          simp
          omega
        · simp [List.count_append, List.count_cons, hae]
      exact (List.Perm.nodup_iff hp).mpr hnd1
    have htok_new : ∀ o, o ∈ c.inflight ++ rest.filterMap QItem.obj? ++
        (c.events.map OutEvent.obj ++ [e.obj]) ↔ o ∈ tokens c := by
      intro o
      have hp : (c.inflight ++ rest.filterMap QItem.obj? ++
          (c.events.map OutEvent.obj ++ [e.obj])).Perm
          (e.obj :: (c.inflight ++
            (rest.filterMap QItem.obj? ++ c.events.map OutEvent.obj))) := by
        rw [List.perm_iff_count]
        intro a
        by_cases hae : a = e.obj
        · subst hae
          simp only [List.count_append, List.count_cons]
          simp
          omega
        · simp [List.count_append, List.count_cons, hae]
      have hp0 : (tokens c).Perm
          (e.obj :: (c.inflight ++
            (rest.filterMap QItem.obj? ++ c.events.map OutEvent.obj))) := by
        rw [List.perm_iff_count]
        intro a
        simp only [tokens, hqe, List.filterMap_cons, QItem.obj?, List.count_append,
          List.count_cons]
        omega
      rw [List.Perm.mem_iff hp, ← List.Perm.mem_iff hp0]
    by_cases he : e.err = none
    · -- success event: the object moves to finished
      have hstarted : e.obj ∈ c.state.started := by
        by_contra hso
        obtain ⟨hshape, _⟩ := h.queue_unstarted e heem hso
        rw [hshape] at he
        simp at he
      obtain ⟨hprod, hnfin, hnfail⟩ := h.queue_started e heem hstarted
      have hcc : consume c =
          { c with queue := rest,
                   state := { c.state with finished := insert e.obj c.state.finished },
                   events := c.events ++ [e] } := by
        rw [consume.eq_def, hqe]
        simp [he]
      rw [hcc]
      refine ⟨h.objs, h.started_sub, h.failed_sub, ?_, ?_, ?_, ?_, ?_, ?_, ?_, ?_,
        ?_, ?_, ?_, ?_, ?_, ?_⟩
      · exact Finset.insert_subset hstarted h.fin_started
      · intro o ho
        rcases Finset.mem_insert.mp ho with rfl | ho'
        · exact hnfail
        · exact h.fin_failed o ho'
      · show (c.inflight ++ rest.filterMap QItem.obj? ++
          ((c.events ++ [e]).map OutEvent.obj)).Nodup
        have hme : (c.events ++ [e]).map OutEvent.obj
            = c.events.map OutEvent.obj ++ [e.obj] := by simp
        rw [hme]
        exact hnd1'
      · intro o
        show o ∈ c.inflight ++ rest.filterMap QItem.obj? ++
          ((c.events ++ [e]).map OutEvent.obj) ↔ _
        have hme : (c.events ++ [e]).map OutEvent.obj
            = c.events.map OutEvent.obj ++ [e.obj] := by simp
        rw [hme]
        show _ ↔ o ∈ c.state.started ∨ o ∈ c.state.failed
        rw [htok_new o]
        exact h.tok_iff o
      · intro o ho
        obtain ⟨h1', h2', h3'⟩ := h.inflight_inv o ho
        refine ⟨h1', ?_, h3'⟩
        intro hcon
        rcases Finset.mem_insert.mp hcon with rfl | hcon'
        · exact hobj_ninfl ho
        · exact h2' hcon'
      · intro e' he' hst
        obtain ⟨h1', h2', h3'⟩ := h.queue_started e' (hrest_sub e' he') hst
        refine ⟨h1', ?_, h3'⟩
        intro hcon
        rcases Finset.mem_insert.mp hcon with hcon' | hcon'
        · exact hrest_ne e' he' hcon'
        · exact h2' hcon'
      · intro e' he' hst
        exact h.queue_unstarted e' (hrest_sub e' he') hst
      · intro e' he' hee
        rcases List.mem_append.mp he' with hh | hh
        · exact Finset.mem_insert_of_mem (h.ev_fin e' hh hee)
        · simp only [List.mem_singleton] at hh
          subst hh
          exact Finset.mem_insert_self _ _
      · intro e' he' hee
        rcases List.mem_append.mp he' with hh | hh
        · exact h.ev_fail e' hh hee
        · simp only [List.mem_singleton] at hh
          subst hh
          exact absurd he hee
      · intro hsm
        refine is_done_of_le (hstop_rest hsm) rfl ?_ ?_
        · exact Finset.subset_insert _ _
        · exact Finset.Subset.refl _
      · exact hstop_tail'
      · intro o ho d hd hdo
        exact Finset.mem_insert_of_mem (h.started_deps o ho d hd hdo)
      · intro hcon
        exact absurd hcon (by simp [hs])
      · intro hcon
        exact absurd hcon (by simp [hs])
    · -- failure event: the object moves to failed
      have hobj_sf : e.obj ∈ c.state.started ∨ e.obj ∈ c.state.failed :=
        (h.tok_iff e.obj).mp hobj_tok
      have hobj_U : e.obj ∈ objects.toFinset := by
        rcases hobj_sf with hh | hh
        · exact h.started_sub hh
        · exact h.failed_sub hh
      have hobj_nfin : e.obj ∉ c.state.finished := by
        by_cases hso : e.obj ∈ c.state.started
        · exact (h.queue_started e heem hso).2.1
        · intro hcon
          exact hso (h.fin_started hcon)
      have hcc : consume c =
          { c with queue := rest,
                   state := { c.state with failed := insert e.obj c.state.failed },
                   events := c.events ++ [e] } := by
        rw [consume.eq_def, hqe]
        simp [he]
      rw [hcc]
      refine ⟨h.objs, h.started_sub, ?_, h.fin_started, ?_, ?_, ?_, ?_, ?_, ?_, ?_,
        ?_, ?_, ?_, ?_, ?_, ?_⟩
      · exact Finset.insert_subset hobj_U h.failed_sub
      · intro o ho hcon
        rcases Finset.mem_insert.mp hcon with hcon' | hcon'
        · exact hobj_nfin (hcon' ▸ ho)
        · exact h.fin_failed o ho hcon'
      · show (c.inflight ++ rest.filterMap QItem.obj? ++
          ((c.events ++ [e]).map OutEvent.obj)).Nodup
        have hme : (c.events ++ [e]).map OutEvent.obj
            = c.events.map OutEvent.obj ++ [e.obj] := by simp
        rw [hme]
        exact hnd1'
      · intro o
        show o ∈ c.inflight ++ rest.filterMap QItem.obj? ++
          ((c.events ++ [e]).map OutEvent.obj) ↔ _
        have hme : (c.events ++ [e]).map OutEvent.obj
            = c.events.map OutEvent.obj ++ [e.obj] := by simp
        rw [hme]
        show _ ↔ o ∈ c.state.started ∨ o ∈ insert e.obj c.state.failed
        rw [htok_new o, h.tok_iff o]
        simp only [Finset.mem_insert]
        constructor
        · rintro (hh | hh)
          · exact Or.inl hh
          · exact Or.inr (Or.inr hh)
        · rintro (hh | rfl | hh)
          · exact Or.inl hh
          · exact hobj_sf
          · exact Or.inr hh
      · intro o ho
        obtain ⟨h1', h2', h3'⟩ := h.inflight_inv o ho
        refine ⟨h1', h2', ?_⟩
        intro hcon
        rcases Finset.mem_insert.mp hcon with rfl | hcon'
        · exact hobj_ninfl ho
        · exact h3' hcon'
      · intro e' he' hst
        obtain ⟨h1', h2', h3'⟩ := h.queue_started e' (hrest_sub e' he') hst
        refine ⟨h1', h2', ?_⟩
        intro hcon
        rcases Finset.mem_insert.mp hcon with hcon' | hcon'
        · exact hrest_ne e' he' hcon'
        · exact h3' hcon'
      · intro e' he' hst
        obtain ⟨h1', h2'⟩ := h.queue_unstarted e' (hrest_sub e' he') hst
        exact ⟨h1', Finset.mem_insert_of_mem h2'⟩
      · intro e' he' hee
        rcases List.mem_append.mp he' with hh | hh
        · exact h.ev_fin e' hh hee
        · simp only [List.mem_singleton] at hh
          subst hh
          exact absurd hee he
      · intro e' he' hee
        rcases List.mem_append.mp he' with hh | hh
        · exact Finset.mem_insert_of_mem (h.ev_fail e' hh hee)
        · simp only [List.mem_singleton] at hh
          subst hh
          exact Finset.mem_insert_self _ _
      · intro hsm
        refine is_done_of_le (hstop_rest hsm) rfl ?_ ?_
        · exact Finset.Subset.refl _
        · exact Finset.subset_insert _ _
      · exact hstop_tail'
      · intro o ho d hd hdo
        exact h.started_deps o ho d hd hdo
      · intro hcon
        exact absurd hcon (by simp [hs])
      · intro hcon
        exact absurd hcon (by simp [hs])

theorem inv_deliver {objects : List α} {func : α → Except PyExc ρ}
    {get_deps : α → List α} {c : Config α ρ} {o : α}
    (h : Inv objects func get_deps c) (ho : o ∈ c.inflight) :
    Inv objects func get_deps
      { c with inflight := c.inflight.erase o,
               queue := c.queue ++ [QItem.ev (producer func o)] } := by
  obtain ⟨hst, hnfin, hnfail⟩ := h.inflight_inv o ho
  have hnostop : QItem.stop ∉ c.queue := by
    intro hsm
    have hd := h.stop_done hsm
    have hcov := done_cover h hd
    have : o ∈ c.state.finished ∪ c.state.failed := by
      rw [hcov]; exact h.started_sub hst
    rcases Finset.mem_union.mp this with hh | hh
    · exact hnfin hh
    · exact hnfail hh
  have hpobj : (producer func o).obj = o := producer_obj func o
  have hpc : (tokens { c with
      inflight := c.inflight.erase o,
      queue := c.queue ++ [QItem.ev (producer func o)] }).Perm (tokens c) := by
    rw [List.perm_iff_count]
    intro a
    simp only [tokens, List.filterMap_append, List.filterMap_cons, hpobj,
      QItem.obj?, List.count_append, List.filterMap_nil]
    by_cases hao : a = o
    · subst hao
      rw [List.count_erase_self]
      have : 0 < c.inflight.count a := List.count_pos_iff.mpr ho
      simp [List.count_cons]
      omega
    · rw [List.count_erase_of_ne hao]
      simp [List.count_cons, hao]
  have hmemq : ∀ q : QItem α ρ,
      q ∈ c.queue ++ [QItem.ev (producer func o)] ↔
        q ∈ c.queue ∨ q = QItem.ev (producer func o) := by
    intro q
    simp [List.mem_append]
  refine ⟨h.objs, h.started_sub, h.failed_sub, h.fin_started, h.fin_failed, ?_, ?_,
    ?_, ?_, ?_, h.ev_fin, h.ev_fail, ?_, ?_, h.started_deps, ?_, ?_⟩
  · exact (List.Perm.nodup_iff hpc).mpr h.tok_nodup
  · intro x
    rw [List.Perm.mem_iff hpc]
    exact h.tok_iff x
  · intro x hx
    exact h.inflight_inv x (List.mem_of_mem_erase hx)
  · intro e' he' hstt
    rcases (hmemq (QItem.ev e')).mp he' with hh | hh
    · exact h.queue_started e' hh hstt
    · have : e' = producer func o := by
        injection hh
      subst this
      rw [hpobj] at hstt ⊢
      exact ⟨rfl, hnfin, hnfail⟩
  · intro e' he' hstt
    rcases (hmemq (QItem.ev e')).mp he' with hh | hh
    · exact h.queue_unstarted e' hh hstt
    · exfalso
      have : e' = producer func o := by injection hh
      subst this
      rw [hpobj] at hstt
      exact hstt hst
  · intro hsm
    rcases (hmemq QItem.stop).mp hsm with hh | hh
    · exact h.stop_done hh
    · exact absurd hh (by simp)
  · obtain ⟨q1, q2, h12, h1, h2⟩ := h.stop_tail
    have hq2nil : q2 = [] := by
      rcases hq2e : q2 with _ | ⟨x, xs⟩
      · rfl
      · exfalso
        apply hnostop
        rw [h12, hq2e, h2 x (by rw [hq2e]; exact List.mem_cons_self x xs)]
        exact List.mem_append.mpr (Or.inr (List.mem_cons_self _ _))
    refine ⟨c.queue ++ [QItem.ev (producer func o)], [], by simp, ?_, by simp⟩
    intro hcon
    rcases (hmemq QItem.stop).mp hcon with hh | hh
    · exact hnostop hh
    · exact absurd hh (by simp)
  · intro hcon; exact h.stopped_done hcon
  · intro hcon; exact h.stopped_events hcon

theorem inv_step {objects : List α} {func : α → Except PyExc ρ}
    {get_deps : α → List α} {c c' : Config α ρ}
    (h : Inv objects func get_deps c) (hst : Step objects func get_deps c c') :
    Inv objects func get_deps c' := by
  cases hst with
  | deliver o ho hs => exact inv_deliver h ho
  | tick pend hp hs =>
    rw [tickResult_eq]
    exact inv_consume (inv_feedApply h hp hs) (by rw [feedApply_stopped]; exact hs)

theorem inv_init (objects : List α) (func : α → Except PyExc ρ)
    (get_deps : α → List α) : Inv objects func get_deps (init (ρ := ρ) objects) := by
  refine ⟨rfl, by simp [init], by simp [init], by simp [init], by simp [init],
    by simp [init, tokens], by simp [init, tokens], by simp [init],
    by simp [init], by simp [init], by simp [init], by simp [init],
    by simp [init], ⟨[], [], by simp [init], by simp, by simp⟩,
    by simp [init], by simp [init], by simp [init]⟩

theorem inv_reach {objects : List α} {func : α → Except PyExc ρ}
    {get_deps : α → List α} {c : Config α ρ}
    (h : Reach objects func get_deps c) : Inv objects func get_deps c := by
  induction h with
  | refl => exact inv_init objects func get_deps
  | tail hr hst ih => exact inv_step ih hst

theorem consume_state (c : Config α ρ) :
    (consume c).state.objects = c.state.objects ∧
    (consume c).state.started = c.state.started ∧
    c.state.finished ⊆ (consume c).state.finished ∧
    c.state.failed ⊆ (consume c).state.failed := by
  rcases hq : c.queue with _ | ⟨q, rest⟩
  · rw [consume.eq_def, hq]
    exact ⟨rfl, rfl, Finset.Subset.refl _, Finset.Subset.refl _⟩
  · rcases q with _ | e
    · rw [consume.eq_def, hq]
      exact ⟨rfl, rfl, Finset.Subset.refl _, Finset.Subset.refl _⟩
    · rw [consume.eq_def, hq]
      dsimp only
      split
      · exact ⟨rfl, rfl, Finset.subset_insert _ _, Finset.Subset.refl _⟩
      · exact ⟨rfl, rfl, Finset.Subset.refl _, Finset.subset_insert _ _⟩

theorem step_mono {objects : List α} {func : α → Except PyExc ρ}
    {get_deps : α → List α} {c c' : Config α ρ}
    (hst : Step objects func get_deps c c') :
    c'.state.objects = c.state.objects ∧
    c.state.started ⊆ c'.state.started ∧
    c.state.finished ⊆ c'.state.finished ∧
    c.state.failed ⊆ c'.state.failed := by
  cases hst with
  | deliver o ho hs =>
    exact ⟨rfl, Finset.Subset.refl _, Finset.Subset.refl _, Finset.Subset.refl _⟩
  | tick pend hp hs =>
    rw [tickResult_eq]
    have hc := consume_state (feedApply objects get_deps pend c)
    have r := feedAux_spec objects get_deps pend c.state
    have hfa : (feedApply (ρ := ρ) objects get_deps pend c).state =
        (feedAux objects get_deps pend c.state).st :=
      feedApply_state objects get_deps pend c
    refine ⟨?_, ?_, ?_, ?_⟩
    · rw [hc.1, hfa, r.objs]
    · intro x hx
      rw [hc.2.1, hfa, r.started_eq]
      exact Finset.mem_union_left _ hx
    · intro x hx
      apply hc.2.2.1
      rw [hfa, r.fin]
      exact hx
    · intro x hx
      apply hc.2.2.2
      rw [hfa, r.failed_eq]
      exact Finset.mem_union_left _ hx

theorem step_new_started {objects : List α} {func : α → Except PyExc ρ}
    {get_deps : α → List α} {c c' : Config α ρ} {o : α}
    (hst : Step objects func get_deps c c') (h1 : o ∉ c.state.started)
    (h2 : o ∈ c'.state.started) : o ∈ c.state.pending := by
  cases hst with
  | deliver o' ho hs => exact absurd h2 h1
  | tick pend hp hs =>
    rw [tickResult_eq] at h2
    have hc := consume_state (feedApply objects get_deps pend c)
    rw [hc.2.1, feedApply_state] at h2
    have r := feedAux_spec objects get_deps pend c.state
    rw [r.started_eq] at h2
    rcases Finset.mem_union.mp h2 with hh | hh
    · exact absurd hh h1
    · rw [← hp.2]
      exact List.mem_toFinset.mpr
        (r.launch_mem o (List.mem_toFinset.mp hh))

theorem step_not_started_of_failed {objects : List α} {func : α → Except PyExc ρ}
    {get_deps : α → List α} {c c' : Config α ρ} {o : α}
    (hst : Step objects func get_deps c c') (hf : o ∈ c.state.failed)
    (hns : o ∉ c.state.started) : o ∈ c'.state.failed ∧ o ∉ c'.state.started := by
  refine ⟨(step_mono hst).2.2.2 hf, ?_⟩
  intro hcon
  have hp := step_new_started hst hns hcon
  exact (mem_pending_iff.mp hp).2.2.2 hf

theorem steps_not_started_of_failed {objects : List α} {func : α → Except PyExc ρ}
    {get_deps : α → List α} {c c' : Config α ρ} {o : α}
    (hst : Relation.ReflTransGen (Step objects func get_deps) c c')
    (hf : o ∈ c.state.failed) (hns : o ∉ c.state.started) :
    o ∈ c'.state.failed ∧ o ∉ c'.state.started := by
  induction hst with
  | refl => exact ⟨hf, hns⟩
  | tail hr hstp ih => exact step_not_started_of_failed hstp ih.1 ih.2

theorem phi_of_not_stopped {c : Config α ρ} (hns : c.stopped = false) :
    phi c = 1 + 3 * (c.state.objects.toFinset \ (c.state.started ∪ c.state.failed)).card
      + 2 * c.inflight.length + (c.queue.filterMap QItem.obj?).length := by
  rw [phi, if_neg (by simp [hns])]

theorem started_terminal_of_drained {objects : List α} {func : α → Except PyExc ρ}
    {get_deps : α → List α} {c : Config α ρ}
    (h : Inv objects func get_deps c) (hinfl : c.inflight = []) (hq : c.queue = []) :
    ∀ o ∈ c.state.started, o ∈ c.state.finished ∨ o ∈ c.state.failed := by
  intro o ho
  have htok : o ∈ tokens c := (h.tok_iff o).mpr (Or.inl ho)
  rw [tokens, hinfl, hq] at htok
  simp only [List.filterMap_nil, List.nil_append] at htok
  obtain ⟨e, he, heo⟩ := List.mem_map.mp htok
  by_cases hee : e.err = none
  · exact Or.inl (heo ▸ h.ev_fin e he hee)
  · exact Or.inr (heo ▸ h.ev_fail e he hee)

theorem no_stall {objects : List α} {func : α → Except PyExc ρ}
    {get_deps : α → List α} {c : Config α ρ}
    (h : Inv objects func get_deps c) (hacy : AcyclicOn objects get_deps)
    (hnodup : objects.Nodup) (hinfl : c.inflight = []) (hq : c.queue = [])
    (hups : (feedAux objects get_deps c.state.pending.toList c.state).ups = [])
    (hlaunch : (feedAux objects get_deps c.state.pending.toList c.state).launch = [])
    (hdone : (feedAux objects get_deps c.state.pending.toList c.state).st.is_done = false) :
    False := by
  have r := feedAux_spec objects get_deps c.state.pending.toList c.state
  have hfail' : (feedAux objects get_deps c.state.pending.toList c.state).st.failed
      = c.state.failed := by
    rw [r.failed_eq, hups]; simp
  have hdone' : c.state.is_done = false := by
    rw [← hdone]
    simp [State.is_done, r.objs, r.fin, hfail']
  have hterm := started_terminal_of_drained h hinfl hq
  have hdep : ∀ o ∈ c.state.pending, ∃ d ∈ get_deps o, d ∈ c.state.pending := by
    intro o ho
    have hol : o ∈ c.state.pending.toList := Finset.mem_toList.mpr ho
    rcases r.trichot o hol with hh | hh | hh
    · rw [hups] at hh; exact absurd hh (List.not_mem_nil o)
    · rw [hlaunch] at hh; exact absurd hh (List.not_mem_nil o)
    · obtain ⟨hnofail, d, hd, hdobj, hdnfin⟩ := hh
      refine ⟨d, hd, ?_⟩
      rw [mem_pending_iff]
      have hdU : d ∈ c.state.objects.toFinset := by
        rw [h.objs]; exact List.mem_toFinset.mpr hdobj
      refine ⟨hdU, ?_, hdnfin, hnofail d hd⟩
      intro hdst
      rcases hterm d hdst with hh' | hh'
      · exact hdnfin hh'
      · exact hnofail d hd hh'
  by_cases hne : c.state.pending.Nonempty
  · have hsub : c.state.pending ∈ objects.toFinset.powerset := by
      rw [Finset.mem_powerset]
      intro x hx
      have := (mem_pending_iff.mp hx).1
      rw [h.objs] at this
      exact this
    obtain ⟨o, hoS, hmin⟩ := hacy c.state.pending hsub hne
    obtain ⟨d, hd, hdS⟩ := hdep o hoS
    exact hmin d hd hdS
  · have hpe : c.state.pending = ∅ := Finset.not_nonempty_iff_eq_empty.mp hne
    have hcov : objects.toFinset ⊆ c.state.finished ∪ c.state.failed := by
      intro o hoU
      by_cases hos : o ∈ c.state.started
      · rcases hterm o hos with hh | hh
        · exact Finset.mem_union_left _ hh
        · exact Finset.mem_union_right _ hh
      · by_cases hof : o ∈ c.state.failed
        · exact Finset.mem_union_right _ hof
        · exfalso
          have : o ∈ c.state.pending := by
            rw [mem_pending_iff]
            refine ⟨by rw [h.objs]; exact hoU, hos, ?_, hof⟩
            intro hcon
            exact hos (h.fin_started hcon)
          rw [hpe] at this
          exact Finset.not_mem_empty o this
    have hsub2 : c.state.finished ∪ c.state.failed ⊆ objects.toFinset :=
      Finset.union_subset (h.fin_started.trans h.started_sub) h.failed_sub
    have heq : c.state.finished ∪ c.state.failed = objects.toFinset :=
      Finset.Subset.antisymm hsub2 hcov
    have hdisj : Disjoint c.state.finished c.state.failed :=
      Finset.disjoint_left.mpr (fun a ha hb => h.fin_failed a ha hb)
    have hcard : c.state.finished.card + c.state.failed.card = objects.length := by
      rw [← Finset.card_union_of_disjoint hdisj, heq, List.toFinset_card_of_nodup hnodup]
    rw [State.is_done, h.objs] at hdone'
    simp only [decide_eq_false_iff_not, not_le] at hdone'
    omega

theorem phi_feedApply {objects : List α} {func : α → Except PyExc ρ}
    {get_deps : α → List α} {c : Config α ρ} {pend : List α}
    (h : Inv objects func get_deps c) (hp : PendEnum c.state pend)
    (hns : c.stopped = false) :
    phi (feedApply objects get_deps pend c) +
      (feedAux objects get_deps pend c.state).launch.length +
      2 * (feedAux objects get_deps pend c.state).ups.length = phi c := by
  obtain ⟨hnd, hpf⟩ := hp
  have r := feedAux_spec objects get_deps pend c.state
  set A := feedAux objects get_deps pend c.state with hA
  have htoknd := r.tok hnd
  have hndU : A.ups.Nodup := (List.nodup_append.mp htoknd).1
  have hndL : A.launch.Nodup := (List.nodup_append.mp htoknd).2.1
  have hdisjUL : A.ups.Disjoint A.launch := (List.nodup_append.mp htoknd).2.2
  have hpend : ∀ x ∈ pend, x ∈ c.state.objects.toFinset ∧ x ∉ c.state.started ∧
      x ∉ c.state.finished ∧ x ∉ c.state.failed := by
    intro x hx
    have hx' : x ∈ c.state.pending := by rw [← hpf]; exact List.mem_toFinset.mpr hx
    exact mem_pending_iff.mp hx'
  -- the launched and upstream-failed objects are new members of started ∪ failed
  have hYsub : A.launch.toFinset ∪ A.ups.toFinset ⊆
      c.state.objects.toFinset \ (c.state.started ∪ c.state.failed) := by
    intro x hx
    rw [Finset.mem_sdiff, Finset.mem_union]
    rcases Finset.mem_union.mp hx with hh | hh
    · have := hpend x (r.launch_mem x (List.mem_toFinset.mp hh))
      exact ⟨this.1, fun hcon => hcon.elim (fun hc => this.2.1 hc) (fun hc => this.2.2.2 hc)⟩
    · have := hpend x (r.ups_mem x (List.mem_toFinset.mp hh))
      exact ⟨this.1, fun hcon => hcon.elim (fun hc => this.2.1 hc) (fun hc => this.2.2.2 hc)⟩
  have hYcard : (A.launch.toFinset ∪ A.ups.toFinset).card =
      A.launch.length + A.ups.length := by
    rw [Finset.card_union_of_disjoint, List.toFinset_card_of_nodup hndL,
      List.toFinset_card_of_nodup hndU]
    rw [Finset.disjoint_left]
    intro a ha hb
    exact hdisjUL (List.mem_toFinset.mp hb) (List.mem_toFinset.mp ha)
  have hsetT' : A.st.objects.toFinset \ (A.st.started ∪ A.st.failed) =
      (c.state.objects.toFinset \ (c.state.started ∪ c.state.failed)) \
        (A.launch.toFinset ∪ A.ups.toFinset) := by
    rw [r.objs, r.started_eq, r.failed_eq]
    ext a
    simp only [Finset.mem_sdiff, Finset.mem_union]
    tauto
  have hcardT' : (A.st.objects.toFinset \ (A.st.started ∪ A.st.failed)).card =
      (c.state.objects.toFinset \ (c.state.started ∪ c.state.failed)).card -
        (A.launch.length + A.ups.length) := by
    rw [hsetT', Finset.card_sdiff hYsub, hYcard]
  have hYle : A.launch.length + A.ups.length ≤
      (c.state.objects.toFinset \ (c.state.started ∪ c.state.failed)).card := by
    rw [← hYcard]
    exact Finset.card_le_card hYsub
  have hqlen : ((feedApply objects get_deps pend c).queue.filterMap QItem.obj?).length
      = (c.queue.filterMap QItem.obj?).length + A.ups.length := by
    rw [feedApply_queue, ← hA]
    rw [List.filterMap_append, List.filterMap_append, filterMap_upEvents, filterMap_stopIf]
    simp
  have hilen : (feedApply (ρ := ρ) objects get_deps pend c).inflight.length
      = c.inflight.length + A.launch.length := by
    rw [feedApply_inflight, ← hA, List.length_append]
  have hstA : (feedApply (ρ := ρ) objects get_deps pend c).state = A.st := by
    rw [feedApply_state, ← hA]
  rw [phi_of_not_stopped hns,
    phi_of_not_stopped (show (feedApply objects get_deps pend c).stopped = false by
      rw [feedApply_stopped]; exact hns)]
  rw [hqlen, hilen, hstA, hcardT']
  omega

theorem phi_consume_ev {objects : List α} {func : α → Except PyExc ρ}
    {get_deps : α → List α} {x : Config α ρ} {e : OutEvent α ρ}
    {rest : List (QItem α ρ)}
    (h : Inv objects func get_deps x) (hns : x.stopped = false)
    (hq : x.queue = QItem.ev e :: rest) :
    phi (consume x) + 1 = phi x := by
  have heem : QItem.ev e ∈ x.queue := by rw [hq]; exact List.mem_cons_self _ _
  have hobj_tok : e.obj ∈ tokens x := by
    rw [tokens]
    refine List.mem_append.mpr (Or.inl (List.mem_append.mpr (Or.inr ?_)))
    rw [hq, List.filterMap_cons]
    simp [QItem.obj?]
  have hobj_sf : e.obj ∈ x.state.started ∨ e.obj ∈ x.state.failed :=
    (h.tok_iff e.obj).mp hobj_tok
  set y := consume x with hy
  by_cases he : e.err = none
  · have hcc : consume x =
        { x with queue := rest,
                 state := { x.state with finished := insert e.obj x.state.finished },
                 events := x.events ++ [e] } := by
      rw [consume.eq_def, hq]
      simp [he]
    have hys : y.stopped = false := by rw [hy, hcc]; exact hns
    have hy1 : y.state.objects = x.state.objects := by rw [hy, hcc]
    have hy2 : y.state.started = x.state.started := by rw [hy, hcc]
    have hy3 : y.state.failed = x.state.failed := by rw [hy, hcc]
    have hy4 : y.inflight = x.inflight := by rw [hy, hcc]
    have hy5 : y.queue = rest := by rw [hy, hcc]
    rw [phi_of_not_stopped hys, phi_of_not_stopped hns, hy1, hy2, hy3, hy4, hy5, hq]
    simp only [List.filterMap_cons, QItem.obj?, List.length_cons]
    omega
  · have hcc : consume x =
        { x with queue := rest,
                 state := { x.state with failed := insert e.obj x.state.failed },
                 events := x.events ++ [e] } := by
      rw [consume.eq_def, hq]
      simp [he]
    have hys : y.stopped = false := by rw [hy, hcc]; exact hns
    have hy1 : y.state.objects = x.state.objects := by rw [hy, hcc]
    have hy2 : y.state.started = x.state.started := by rw [hy, hcc]
    have hy3 : y.state.failed = insert e.obj x.state.failed := by rw [hy, hcc]
    have hy4 : y.inflight = x.inflight := by rw [hy, hcc]
    have hy5 : y.queue = rest := by rw [hy, hcc]
    have habs : x.state.objects.toFinset \ (x.state.started ∪ insert e.obj x.state.failed)
        = x.state.objects.toFinset \ (x.state.started ∪ x.state.failed) := by
      ext a
      simp only [Finset.mem_sdiff, Finset.mem_union, Finset.mem_insert]
      constructor
      · rintro ⟨h1, h2⟩
        exact ⟨h1, fun hcon => h2 (hcon.elim Or.inl (fun hh => Or.inr (Or.inr hh)))⟩
      · rintro ⟨h1, h2⟩
        refine ⟨h1, ?_⟩
        rintro (hh | rfl | hh)
        · exact h2 (Or.inl hh)
        · exact h2 hobj_sf
        · exact h2 (Or.inr hh)
    rw [phi_of_not_stopped hys, phi_of_not_stopped hns, hy1, hy2, hy3, hy4, hy5, hq,
      habs]
    simp only [List.filterMap_cons, QItem.obj?, List.length_cons]
    omega

theorem progress_step {objects : List α} {func : α → Except PyExc ρ}
    {get_deps : α → List α} {c : Config α ρ}
    (h : Inv objects func get_deps c) (hacy : AcyclicOn objects get_deps)
    (hnodup : objects.Nodup) (hns : c.stopped = false) :
    ∃ c', Step objects func get_deps c c' ∧
      (c'.stopped = true ∨ phi c' < phi c) := by
  rcases hie : c.inflight with _ | ⟨o, irest⟩
  · -- no worker in flight: run one loop iteration over the canonical order
    have hp : PendEnum c.state c.state.pending.toList :=
      ⟨Finset.nodup_toList _, by simp⟩
    refine ⟨tickResult objects get_deps c.state.pending.toList c,
      Step.tick c c.state.pending.toList hp hns, ?_⟩
    have hmid := inv_feedApply h hp hns
    have hphi := phi_feedApply h hp hns
    set mid := feedApply objects get_deps c.state.pending.toList c with hmidd
    have hmidns : mid.stopped = false := by
      rw [hmidd, feedApply_stopped]; exact hns
    rw [tickResult_eq, ← hmidd]
    set A := feedAux objects get_deps c.state.pending.toList c.state with hA
    rcases hmq : mid.queue with _ | ⟨q, qrest⟩
    · -- queue empty after the pass: the pass must have done something
      have hcc : consume mid = mid := by rw [consume.eq_def, hmq]
      rw [hcc]
      right
      have hqc : c.queue = [] ∧ A.ups = [] ∧
          ¬ A.st.is_done = true ∨ A.launch ≠ [] ∨ A.ups ≠ [] := by
        by_cases hcq : c.queue = []
        · by_cases hu : A.ups = []
          · by_cases hdn : A.st.is_done = true
            · exfalso
              rw [hmidd, feedApply_queue, ← hA] at hmq
              rw [if_pos hdn] at hmq
              simp at hmq
            · exact Or.inl ⟨hcq, hu, hdn⟩
          · exact Or.inr (Or.inr hu)
        · exfalso
          rw [hmidd, feedApply_queue, ← hA] at hmq
          rcases List.append_eq_nil.mp hmq with ⟨h1, _⟩
          exact hcq h1
      rcases hqc with ⟨hcq, hu, hdn⟩ | hL | hU
      · -- nothing put, nothing launched would be a stall: impossible or launch ≠ []
        by_cases hl : A.launch = []
        · exact absurd (no_stall h hacy hnodup hie hcq
            (by rw [← hA]; exact hu) (by rw [← hA]; exact hl)
            (by rw [← hA]; exact Bool.eq_false_iff.mpr hdn)) (fun x => x)
        · have : A.launch.length ≠ 0 := fun hcon => hl (List.length_eq_zero.mp hcon)
          omega
      · have : A.launch.length ≠ 0 := fun hcon => hL (List.length_eq_zero.mp hcon)
        omega
      · have : A.ups.length ≠ 0 := fun hcon => hU (List.length_eq_zero.mp hcon)
        omega
    · rcases q with _ | e
      · -- STOP at the front of the queue: the loop breaks
        left
        have hcc : consume mid = { mid with queue := qrest, stopped := true } := by
          rw [consume.eq_def, hmq]
        rw [hcc]
      · -- real event at the front: it is consumed
        right
        have := phi_consume_ev hmid hmidns hmq
        omega
  · -- a worker is in flight: deliver its outcome
    have ho : o ∈ c.inflight := by rw [hie]; exact List.mem_cons_self _ _
    refine ⟨_, Step.deliver c o ho hns, ?_⟩
    right
    set y : Config α ρ := { c with
      inflight := c.inflight.erase o,
      queue := c.queue ++ [QItem.ev (producer func o)] } with hy
    have hys : y.stopped = false := by rw [hy]; exact hns
    have hy1 : y.state = c.state := by rw [hy]
    have hy4 : y.inflight = c.inflight.erase o := by rw [hy]
    have hy5 : y.queue = c.queue ++ [QItem.ev (producer func o)] := by rw [hy]
    rw [phi_of_not_stopped hns, phi_of_not_stopped hys, hy1, hy4, hy5]
    have hlen : (c.inflight.erase o).length + 1 = c.inflight.length := by
      rw [List.length_erase_of_mem ho]
      have : c.inflight.length ≠ 0 := by
        rw [hie]; simp
      omega
    have hqlen : ((c.queue ++ [QItem.ev (producer func o)]).filterMap QItem.obj?).length
        = (c.queue.filterMap QItem.obj?).length + 1 := by
      rw [List.filterMap_append]
      simp [QItem.obj?]
    rw [hqlen]
    omega

theorem reach_stop_aux {objects : List α} {func : α → Except PyExc ρ}
    {get_deps : α → List α}
    (hacy : AcyclicOn objects get_deps) (hnodup : objects.Nodup) :
    ∀ (n : Nat) (c : Config α ρ), Inv objects func get_deps c → phi c ≤ n →
      ∃ c', Relation.ReflTransGen (Step objects func get_deps) c c' ∧
        c'.stopped = true := by
  intro n
  induction n with
  | zero =>
    intro c h hphi
    have hstp : c.stopped = true := by
      by_contra hns
      have hns' : c.stopped = false := Bool.eq_false_iff.mpr hns
      rw [phi_of_not_stopped hns'] at hphi
      omega
    exact ⟨c, Relation.ReflTransGen.refl, hstp⟩
  | succ n ih =>
    intro c h hphi
    by_cases hstp : c.stopped = true
    · exact ⟨c, Relation.ReflTransGen.refl, hstp⟩
    · have hns : c.stopped = false := Bool.eq_false_iff.mpr hstp
      obtain ⟨c1, hstep, hca⟩ := progress_step h hacy hnodup hns
      rcases hca with hstop | hlt
      · exact ⟨c1, Relation.ReflTransGen.single hstep, hstop⟩
      · obtain ⟨c', hrtc, hstop⟩ := ih c1 (inv_step h hstep) (by omega)
        exact ⟨c', Relation.ReflTransGen.head hstep hrtc, hstop⟩

theorem reach_stop {objects : List α} {func : α → Except PyExc ρ}
    {get_deps : α → List α} {c : Config α ρ}
    (hacy : AcyclicOn objects get_deps) (hnodup : objects.Nodup)
    (h : Inv objects func get_deps c) :
    ∃ c', Relation.ReflTransGen (Step objects func get_deps) c c' ∧
      c'.stopped = true :=
  reach_stop_aux hacy hnodup (phi c) c h (Nat.le_refl _)


theorem inv_rtc {objects : List α} {func : α → Except PyExc ρ}
    {get_deps : α → List α} {c c' : Config α ρ}
    (h : Inv objects func get_deps c)
    (hst : Relation.ReflTransGen (Step objects func get_deps) c c') :
    Inv objects func get_deps c' := by
  induction hst with
  | refl => exact h
  | tail hr hstp ih => exact inv_step ih hstp

theorem events_nodup {objects : List α} {func : α → Except PyExc ρ}
    {get_deps : α → List α} {c : Config α ρ} (h : Inv objects func get_deps c) :
    (c.events.map OutEvent.obj).Nodup := by
  have hsub : (c.events.map OutEvent.obj).Sublist (tokens c) := by
    rw [tokens]
    exact List.sublist_append_right _ _
  exact hsub.nodup h.tok_nodup

theorem dup_not_done {objects : List α} {func : α → Except PyExc ρ}
    {get_deps : α → List α} {c : Config α ρ}
    (h : Inv objects func get_deps c) (hdup : ¬ objects.Nodup) :
    c.state.is_done = false := by
  by_contra hcon
  have hd : c.state.is_done = true := by
    revert hcon; cases c.state.is_done <;> simp
  simp only [State.is_done, decide_eq_true_eq, h.objs] at hd
  have hdisj : Disjoint c.state.finished c.state.failed :=
    Finset.disjoint_left.mpr (fun a ha hb => h.fin_failed a ha hb)
  have hsub : c.state.finished ∪ c.state.failed ⊆ objects.toFinset :=
    Finset.union_subset (h.fin_started.trans h.started_sub) h.failed_sub
  have hcard1 : c.state.finished.card + c.state.failed.card ≤ objects.toFinset.card := by
    rw [← Finset.card_union_of_disjoint hdisj]
    exact Finset.card_le_card hsub
  have hcard2 : objects.toFinset.card < objects.length := by
    rw [List.card_toFinset]
    have hsl : objects.dedup.Sublist objects := List.dedup_sublist objects
    have hle := hsl.length_le
    rcases Nat.lt_or_ge objects.dedup.length objects.length with hh | hh
    · exact hh
    · exfalso
      have hlen : objects.dedup.length = objects.length := Nat.le_antisymm hle hh
      have : objects.dedup = objects := hsl.eq_of_length hlen
      exact hdup (this ▸ objects.nodup_dedup)
  omega

theorem stopped_event_count {objects : List α} {func : α → Except PyExc ρ}
    {get_deps : α → List α} {c : Config α ρ}
    (h : Inv objects func get_deps c) (hstp : c.stopped = true) (o : α) :
    countE c.events o = if o ∈ objects then 1 else 0 := by
  obtain ⟨hnd, hiff⟩ := h.stopped_events hstp
  by_cases ho : o ∈ objects
  · rw [if_pos ho, countE]
    exact List.count_eq_one_of_mem hnd ((hiff o).mpr ho)
  · rw [if_neg ho, countE, List.count_eq_zero]
    intro hcon
    exact ho ((hiff o).mp hcon)

theorem consume_pending {objects : List α} {func : α → Except PyExc ρ}
    {get_deps : α → List α} {x : Config α ρ} {o : α}
    (h : Inv objects func get_deps x) (ho : o ∈ x.state.pending) :
    o ∈ (consume x).state.pending := by
  rcases hq : x.queue with _ | ⟨q, rest⟩
  · have hcc : consume x = x := by rw [consume.eq_def, hq]
    rw [hcc]; exact ho
  rcases q with _ | e
  · have hcc : consume x = { x with queue := rest, stopped := true } := by
      rw [consume.eq_def, hq]
    rw [hcc]; exact ho
  · have hobj_tok : e.obj ∈ tokens x := by
      rw [tokens]
      refine List.mem_append.mpr (Or.inl (List.mem_append.mpr (Or.inr ?_)))
      rw [hq, List.filterMap_cons]
      simp [QItem.obj?]
    have hobj_sf : e.obj ∈ x.state.started ∨ e.obj ∈ x.state.failed :=
      (h.tok_iff e.obj).mp hobj_tok
    have hone : o ≠ e.obj := by
      rintro rfl
      have hm := mem_pending_iff.mp ho
      rcases hobj_sf with hh | hh
      · exact hm.2.1 hh
      · exact hm.2.2.2 hh
    have hm := mem_pending_iff.mp ho
    by_cases he : e.err = none
    · have hcc : consume x =
          { x with queue := rest,
                   state := { x.state with finished := insert e.obj x.state.finished },
                   events := x.events ++ [e] } := by
        rw [consume.eq_def, hq]; simp [he]
      rw [hcc, mem_pending_iff]
      refine ⟨hm.1, hm.2.1, ?_, hm.2.2.2⟩
      intro hcon
      rcases Finset.mem_insert.mp hcon with hcon' | hcon'
      · exact hone hcon'
      · exact hm.2.2.1 hcon'
    · have hcc : consume x =
          { x with queue := rest,
                   state := { x.state with failed := insert e.obj x.state.failed },
                   events := x.events ++ [e] } := by
        rw [consume.eq_def, hq]; simp [he]
      rw [hcc, mem_pending_iff]
      refine ⟨hm.1, hm.2.1, hm.2.2.1, ?_⟩
      intro hcon
      rcases Finset.mem_insert.mp hcon with hcon' | hcon'
      · exact hone hcon'
      · exact hm.2.2.2 hcon'

theorem feedAux_no_failed (objects : List α) (get_deps : α → List α) :
    ∀ (pend : List α) (st : State α), st.failed = ∅ →
      (feedAux objects get_deps pend st).ups = [] ∧
      (feedAux objects get_deps pend st).st.failed = ∅ := by
  intro pend
  induction pend with
  | nil => intro st hf; exact ⟨rfl, hf⟩
  | cons o rest ih =>
    intro st hf
    have hany : (get_deps o).any (fun d => decide (d ∈ st.failed)) = false := by
      rw [List.any_eq_false]
      intro d hd
      simp [hf]
    rw [feedAux_cons]
    by_cases h2 : (get_deps o).all
        (fun d => decide (d ∉ objects) || decide (d ∈ st.finished)) = true
    · rw [feedStep_launch objects get_deps st o (by simp [hany]) h2]
      have := ih { st with started := insert o st.started } hf
      exact ⟨this.1, this.2⟩
    · rw [feedStep_skip objects get_deps st o (by simp [hany]) h2]
      have := ih st hf
      exact ⟨this.1, this.2⟩

theorem cyc_preserved {objects : List α} {func : α → Except PyExc ρ}
    {get_deps : α → List α} {S : Finset α} {c : Config α ρ}
    (hS : ∀ s ∈ S, s ∈ objects)
    (hcyc : ∀ s ∈ S, ∃ d ∈ get_deps s, d ∈ S)
    (hok : ∀ x : α, ∃ rr, func x = Except.ok rr)
    (hr : Reach objects func get_deps c) :
    c.state.failed = ∅ ∧ ∀ s ∈ S, s ∉ c.state.started := by
  induction hr with
  | refl => exact ⟨rfl, by simp [init]⟩
  | @tail b c' hrb hstep ih =>
    have hinv : Inv objects func get_deps b := inv_reach hrb
    obtain ⟨hfail, hstart⟩ := ih
    cases hstep with
    | deliver o ho hs => exact ⟨hfail, hstart⟩
    | tick pend hp hs =>
      have r := feedAux_spec objects get_deps pend b.state
      have hnf := feedAux_no_failed objects get_deps pend b.state hfail
      -- the feed pass starts no cycle member and fails nobody
      have hlS : ∀ s ∈ S, s ∉ (feedAux objects get_deps pend b.state).launch := by
        intro s hsS hsl
        obtain ⟨d, hd, hdS⟩ := hcyc s hsS
        rcases r.launch_adm s hsl d hd with hh | hh
        · exact hh (hS d hdS)
        · have hdst : d ∈ b.state.started := hinv.fin_started hh
          exact hstart d hdS hdst
      have hmidfail : (feedApply objects get_deps pend b).state.failed = ∅ := by
        rw [feedApply_state]
        exact hnf.2
      have hmidstart : ∀ s ∈ S, s ∉ (feedApply objects get_deps pend b).state.started := by
        intro s hsS hcon
        rw [feedApply_state, r.started_eq] at hcon
        rcases Finset.mem_union.mp hcon with hh | hh
        · exact hstart s hsS hh
        · exact hlS s hsS (List.mem_toFinset.mp hh)
      have hmapinv : Inv objects func get_deps (feedApply objects get_deps pend b) :=
        inv_feedApply hinv hp hs
      -- consuming the queue front cannot add to failed: every queued event succeeded
      set mid := feedApply objects get_deps pend b with hmid
      rw [tickResult_eq, ← hmid]
      rcases hq : mid.queue with _ | ⟨q, rest⟩
      · have hcc : consume mid = mid := by rw [consume.eq_def, hq]
        rw [hcc]
        exact ⟨hmidfail, hmidstart⟩
      rcases q with _ | e
      · have hcc : consume mid = { mid with queue := rest, stopped := true } := by
          rw [consume.eq_def, hq]
        rw [hcc]
        exact ⟨hmidfail, hmidstart⟩
      · have heem : QItem.ev e ∈ mid.queue := by rw [hq]; exact List.mem_cons_self _ _
        have he : e.err = none := by
          by_cases hso : e.obj ∈ mid.state.started
          · have := (hmapinv.queue_started e heem hso).1
            obtain ⟨rr, hrr⟩ := hok e.obj
            rw [this, producer, hrr]
          · have := (hmapinv.queue_unstarted e heem hso).2
            rw [hmidfail] at this
            exact absurd this (Finset.not_mem_empty _)
        have hcc : consume mid =
            { mid with queue := rest,
                       state := { mid.state with
                         finished := insert e.obj mid.state.finished },
                       events := mid.events ++ [e] } := by
          rw [consume.eq_def, hq]; simp [he]
        rw [hcc]
        exact ⟨hmidfail, hmidstart⟩

theorem lookup_dictInsert (k k' : String) (v : ErrVal) :
    ∀ m : List (String × ErrVal),
      lookupErr k (dictInsert k' v m) =
        if k' = k then some v else lookupErr k m := by
  intro m
  induction m with
  | nil =>
    by_cases hk : k' = k
    · simp [dictInsert, lookupErr, hk]
    · simp [dictInsert, lookupErr, hk]
  | cons p rest ih =>
    by_cases hp : p.1 = k'
    · rw [dictInsert, if_pos hp]
      by_cases hk : k' = k
      · simp [lookupErr, hk]
      · simp only [lookupErr, if_neg hk]
        rw [if_neg (by rw [hp]; exact hk)]
    · rw [dictInsert, if_neg hp]
      by_cases hpk : p.1 = k
      · rw [lookupErr, if_pos hpk, if_neg (by rw [← hpk]; exact fun hb => hp hb.symm),
          lookupErr, if_pos hpk]
      · rw [lookupErr, if_neg hpk, lookupErr, if_neg hpk, ih]

theorem dictInsert_mem (k' : String) (v : ErrVal) :
    ∀ (m : List (String × ErrVal)) (p : String × ErrVal),
      p ∈ dictInsert k' v m → p.1 = k' ∨ p ∈ m := by
  intro m
  induction m with
  | nil =>
    intro p hp
    simp only [dictInsert, List.mem_singleton] at hp
    exact Or.inl (by rw [hp])
  | cons q rest ih =>
    intro p hp
    rw [dictInsert] at hp
    split at hp
    · rcases List.mem_cons.mp hp with rfl | hh
      · exact Or.inl rfl
      · exact Or.inr (List.mem_cons_of_mem _ hh)
    · rcases List.mem_cons.mp hp with rfl | hh
      · exact Or.inr (List.mem_cons_self _ _)
      · rcases ih p hh with hh' | hh'
        · exact Or.inl hh'
        · exact Or.inr (List.mem_cons_of_mem _ hh')


theorem handleEvent_other (get_name : α → String) (msg : Option String)
    (lines : List String) (s : AggState ρ) (e : OutEvent α ρ) (d : String)
    (he : e.err = some (PyExc.other d)) :
    handleEvent get_name msg lines s e =
      { s with errors := dictInsert (get_name e.obj) (ErrVal.exc (PyExc.other d)) s.errors,
               toReraise := some (PyExc.other d) } := by
  rw [handleEvent.eq_def, he]

theorem handleEvent_upstream (get_name : α → String) (msg : Option String)
    (lines : List String) (s : AggState ρ) (e : OutEvent α ρ)
    (he : e.err = some PyExc.upstream) :
    handleEvent get_name msg lines s e =
      { s with out := s.out ++ pswWriteOut msg lines (get_name e.obj) "error" } := by
  rw [handleEvent.eq_def, he]

theorem aggRun_append (get_name : α → String) (msg : Option String)
    (lines : List String) (s : AggState ρ) (l r : List (OutEvent α ρ)) :
    aggRun get_name msg lines s (l ++ r) =
      aggRun get_name msg lines (aggRun get_name msg lines s l) r := by
  simp [aggRun, List.foldl_append]

theorem unexpectedErrs_append (l r : List (OutEvent α ρ)) :
    unexpectedErrs (l ++ r) = unexpectedErrs l ++ unexpectedErrs r := by
  simp [unexpectedErrs, List.filterMap_append]

theorem aggRun_toReraise (get_name : α → String) (msg : Option String)
    (lines : List String) :
    ∀ (events : List (OutEvent α ρ)) (s : AggState ρ),
      (aggRun get_name msg lines s events).toReraise =
        match (unexpectedErrs events).getLast? with
        | some e => some e
        | none => s.toReraise := by
  intro events
  induction events using List.reverseRecOn with
  | nil => intro s; rfl
  | append_singleton l e ih =>
    intro s
    rw [aggRun_append]
    have hstep : (aggRun get_name msg lines (aggRun get_name msg lines s l) [e])
        = handleEvent get_name msg lines (aggRun get_name msg lines s l) e := rfl
    rw [hstep]
    rw [unexpectedErrs_append]
    rcases he : e.err with _ | pe
    · have h1 : unexpectedErrs [e] = ([] : List PyExc) := by
        simp [unexpectedErrs, unexpectedOf, he]
      rw [h1, List.append_nil]
      rw [handleEvent.eq_def, he]
      exact ih s
    · rcases pe with expl | m0 | _ | d
      · have h1 : unexpectedErrs [e] = ([] : List PyExc) := by
          simp [unexpectedErrs, unexpectedOf, he]
        rw [h1, List.append_nil]
        rw [handleEvent.eq_def, he]
        exact ih s
      · have h1 : unexpectedErrs [e] = ([] : List PyExc) := by
          simp [unexpectedErrs, unexpectedOf, he]
        rw [h1, List.append_nil]
        rw [handleEvent.eq_def, he]
        exact ih s
      · have h1 : unexpectedErrs [e] = ([] : List PyExc) := by
          simp [unexpectedErrs, unexpectedOf, he]
        rw [h1, List.append_nil]
        rw [handleEvent.eq_def, he]
        exact ih s
      · have h1 : unexpectedErrs [e] = [PyExc.other d] := by
          simp [unexpectedErrs, unexpectedOf, he]
        rw [h1, List.getLast?_concat]
        rw [handleEvent.eq_def, he]

theorem errEntriesFor_append (get_name : α → String) (k : String)
    (l r : List (OutEvent α ρ)) :
    errEntriesFor get_name k (l ++ r) =
      errEntriesFor get_name k l ++ errEntriesFor get_name k r := by
  simp [errEntriesFor, List.filterMap_append, List.filter_append]

theorem lookup_handleEvent (get_name : α → String) (msg : Option String)
    (lines : List String) (s : AggState ρ) (e : OutEvent α ρ) (k : String) :
    lookupErr k (handleEvent get_name msg lines s e).errors =
      match (errEntriesFor get_name k [e]).getLast? with
      | some v => some v
      | none => lookupErr k s.errors := by
  rcases he : e.err with _ | pe
  · rw [handleEvent.eq_def, he]
    have h1 : errEntriesFor get_name k [e] = [] := by
      simp [errEntriesFor, entryOf, he]
    rw [h1]
    rfl
  · rcases pe with expl | m0 | _ | d
    · rw [handleEvent.eq_def, he]
      show lookupErr k (dictInsert (get_name e.obj) (ErrVal.str expl) s.errors) = _
      rw [lookup_dictInsert]
      by_cases hk : get_name e.obj = k
      · have h1 : errEntriesFor get_name k [e] = [ErrVal.str expl] := by
          simp [errEntriesFor, entryOf, he, hk]
        rw [h1, if_pos hk]
        rfl
      · have h1 : errEntriesFor get_name k [e] = [] := by
          simp [errEntriesFor, entryOf, he, hk]
        rw [h1, if_neg hk]
        rfl
    · rw [handleEvent.eq_def, he]
      show lookupErr k (dictInsert (get_name e.obj) (ErrVal.str m0) s.errors) = _
      rw [lookup_dictInsert]
      by_cases hk : get_name e.obj = k
      · have h1 : errEntriesFor get_name k [e] = [ErrVal.str m0] := by
          simp [errEntriesFor, entryOf, he, hk]
        rw [h1, if_pos hk]
        rfl
      · have h1 : errEntriesFor get_name k [e] = [] := by
          simp [errEntriesFor, entryOf, he, hk]
        rw [h1, if_neg hk]
        rfl
    · rw [handleEvent.eq_def, he]
      have h1 : errEntriesFor get_name k [e] = [] := by
        simp [errEntriesFor, entryOf, he]
      rw [h1]
      rfl
    · rw [handleEvent.eq_def, he]
      show lookupErr k (dictInsert (get_name e.obj) (ErrVal.exc (PyExc.other d))
        s.errors) = _
      rw [lookup_dictInsert]
      by_cases hk : get_name e.obj = k
      · have h1 : errEntriesFor get_name k [e] = [ErrVal.exc (PyExc.other d)] := by
          simp [errEntriesFor, entryOf, he, hk]
        rw [h1, if_pos hk]
        rfl
      · have h1 : errEntriesFor get_name k [e] = [] := by
          simp [errEntriesFor, entryOf, he, hk]
        rw [h1, if_neg hk]
        rfl

theorem aggRun_lookup (get_name : α → String) (msg : Option String)
    (lines : List String) :
    ∀ (events : List (OutEvent α ρ)) (s : AggState ρ) (k : String),
      lookupErr k (aggRun get_name msg lines s events).errors =
        match (errEntriesFor get_name k events).getLast? with
        | some v => some v
        | none => lookupErr k s.errors := by
  intro events
  induction events using List.reverseRecOn with
  | nil => intro s k; rfl
  | append_singleton l e ih =>
    intro s k
    rw [aggRun_append]
    have hstep : (aggRun get_name msg lines (aggRun get_name msg lines s l) [e])
        = handleEvent get_name msg lines (aggRun get_name msg lines s l) e := rfl
    rw [hstep, lookup_handleEvent, errEntriesFor_append]
    rcases h1 : errEntriesFor get_name k [e] with _ | ⟨v, vs⟩
    · rw [List.append_nil]
      exact ih s k
    · have hvs : vs = [] := by
        have hlen : (errEntriesFor get_name k [e]).length ≤ 1 := by
          have h2 : ([e].filterMap (entryOf get_name)).length ≤ 1 := by
            rcases he' : entryOf get_name e with _ | q
            · simp [List.filterMap_cons, he']
            · simp [List.filterMap_cons, he']
          calc (errEntriesFor get_name k [e]).length
              = (([e].filterMap (entryOf get_name)).filter
                  (fun p => decide (p.1 = k))).length := by
                rw [errEntriesFor, List.length_map]
            _ ≤ ([e].filterMap (entryOf get_name)).length :=
                List.length_filter_le _ _
            _ ≤ 1 := h2
        rw [h1] at hlen
        simp only [List.length_cons] at hlen
        exact List.length_eq_zero.mp (by omega)
      subst hvs
      rw [List.getLast?_concat]
      rfl

theorem aggRun_results (get_name : α → String) (msg : Option String)
    (lines : List String) :
    ∀ (events : List (OutEvent α ρ)) (s : AggState ρ),
      (aggRun get_name msg lines s events).results.length =
        s.results.length + events.countP (fun e => e.err.isNone) := by
  intro events
  induction events with
  | nil => intro s; simp [aggRun]
  | cons e l ih =>
    intro s
    rw [aggRun, List.foldl_cons]
    have hstep : List.foldl (handleEvent get_name msg lines)
        (handleEvent get_name msg lines s e) l
        = aggRun get_name msg lines (handleEvent get_name msg lines s e) l := rfl
    rw [hstep, ih, List.countP_cons]
    rcases he : e.err with _ | pe
    · rw [handleEvent.eq_def, he]
      simp [he]
      omega
    · rcases pe with expl | m0 | _ | d <;>
        · rw [handleEvent.eq_def, he]
          simp [he]

theorem aggRun_errors_keys (get_name : α → String) (msg : Option String)
    (lines : List String) :
    ∀ (events : List (OutEvent α ρ)) (s : AggState ρ) (p : String × ErrVal),
      p ∈ (aggRun get_name msg lines s events).errors →
        p ∈ s.errors ∨ ∃ ev ∈ events, ∃ v, entryOf get_name ev = some (p.1, v) := by
  intro events
  induction events with
  | nil => intro s p hp; exact Or.inl hp
  | cons e l ih =>
    intro s p hp
    rw [aggRun, List.foldl_cons] at hp
    have hstep : List.foldl (handleEvent get_name msg lines)
        (handleEvent get_name msg lines s e) l
        = aggRun get_name msg lines (handleEvent get_name msg lines s e) l := rfl
    rw [hstep] at hp
    rcases ih (handleEvent get_name msg lines s e) p hp with hh | ⟨ev, hev, v, hv⟩
    · rcases he : e.err with _ | pe
      · rw [handleEvent.eq_def, he] at hh
        exact Or.inl hh
      · rcases pe with expl | m0 | _ | d
        · rw [handleEvent.eq_def, he] at hh
          rcases dictInsert_mem _ _ _ p hh with hk | hk
          · exact Or.inr ⟨e, List.mem_cons_self _ _, ErrVal.str expl,
              by rw [entryOf, he, hk]⟩
          · exact Or.inl hk
        · rw [handleEvent.eq_def, he] at hh
          rcases dictInsert_mem _ _ _ p hh with hk | hk
          · exact Or.inr ⟨e, List.mem_cons_self _ _, ErrVal.str m0,
              by rw [entryOf, he, hk]⟩
          · exact Or.inl hk
        · rw [handleEvent.eq_def, he] at hh
          exact Or.inl hh
        · rw [handleEvent.eq_def, he] at hh
          rcases dictInsert_mem _ _ _ p hh with hk | hk
          · exact Or.inr ⟨e, List.mem_cons_self _ _, ErrVal.exc (PyExc.other d),
              by rw [entryOf, he, hk]⟩
          · exact Or.inl hk
    · exact Or.inr ⟨ev, List.mem_cons_of_mem _ hev, v, hv⟩

theorem listIndex_first {β : Type} [DecidableEq β] (x : β) :
    ∀ (l : List β) (i : Nat), listIndex x l = some i →
      l.get? i = some x ∧ x ∉ l.take i := by
  intro l
  induction l with
  | nil => intro i h; simp [listIndex] at h
  | cons y ys ih =>
    intro i h
    rw [listIndex] at h
    by_cases hy : y = x
    · rw [if_pos hy] at h
      have hi : i = 0 := by
        injection h with h
        omega
      subst hi
      simp [hy]
    · rw [if_neg hy] at h
      rcases hoi : listIndex x ys with _ | j
      · rw [hoi] at h; simp at h
      · rw [hoi] at h
        simp only [Option.map_some'] at h
        have hi : i = j + 1 := by
          injection h with h
          omega
        subst hi
        obtain ⟨hg, ht⟩ := ih j hoi
        refine ⟨by simpa using hg, ?_⟩
        rw [List.take_succ_cons]
        intro hcon
        rcases List.mem_cons.mp hcon with hh | hh
        · exact hy hh.symm
        · exact ht hh


/-- Claim C1: on every step of a reachable run, the admission pass launches an
object's worker only when each of its dependencies is outside the universe or
already in `finished` — so no dependency is pending, failed, or started but
unfinished at admission time — and a pending object that has an in-universe
dependency not yet finished, and no dependency in `failed`, is left pending by
the step, to be re-examined on a later tick. -/
theorem claim_C1_admission_gated (objects : List α) (func : α → Except PyExc ρ)
    (get_deps : α → List α) (c c' : Config α ρ) (o : α)
    (hr : Reach objects func get_deps c) (hstep : Step objects func get_deps c c') :
    (o ∉ c.state.started → o ∈ c'.state.started →
      ∀ d ∈ get_deps o, d ∉ objects ∨
        (d ∈ c.state.finished ∧ d ∉ c.state.failed ∧ d ∉ c.state.pending ∧
          ¬ (d ∈ c.state.started ∧ d ∉ c.state.finished))) ∧
    (o ∈ c.state.pending → (∃ d ∈ get_deps o, d ∈ objects ∧ d ∉ c.state.finished) →
      (∀ d ∈ get_deps o, d ∉ c'.state.failed) → o ∈ c'.state.pending) := by
  have hinv := inv_reach hr
  constructor
  · intro hns hs d hd
    cases hstep with
    | deliver o' ho hsf => exact absurd hs hns
    | tick pend hp hsf =>
      rw [tickResult_eq] at hs
      have hc := consume_state (feedApply objects get_deps pend c)
      rw [hc.2.1, feedApply_state] at hs
      have r := feedAux_spec objects get_deps pend c.state
      rw [r.started_eq] at hs
      rcases Finset.mem_union.mp hs with hh | hh
      · exact absurd hh hns
      · rcases r.launch_adm o (List.mem_toFinset.mp hh) d hd with h' | h'
        · exact Or.inl h'
        · refine Or.inr ⟨h', hinv.fin_failed d h', ?_, ?_⟩
          · intro hcon
            exact (mem_pending_iff.mp hcon).2.2.1 h'
          · rintro ⟨_, hcon⟩
            exact hcon h'
  · intro hpend hded hnf
    cases hstep with
    | deliver o' ho hsf => exact hpend
    | tick pend hp hsf =>
      rw [tickResult_eq]
      have hmap := inv_feedApply hinv hp hsf
      refine consume_pending hmap ?_
      have r := feedAux_spec objects get_deps pend c.state
      have hm := mem_pending_iff.mp hpend
      have hnups : o ∉ (feedAux objects get_deps pend c.state).ups := by
        intro hcon
        obtain ⟨d, hd, hdf⟩ := r.ups_cause o hcon
        refine hnf d hd ?_
        rw [tickResult_eq]
        refine (consume_state (feedApply objects get_deps pend c)).2.2.2 ?_
        rw [feedApply_state]
        exact hdf
      have hnl : o ∉ (feedAux objects get_deps pend c.state).launch := by
        intro hcon
        obtain ⟨d, hd, hdo, hdnf⟩ := hded
        rcases r.launch_adm o hcon d hd with h' | h'
        · exact h' hdo
        · exact hdnf h'
      rw [mem_pending_iff, feedApply_state, r.objs, r.fin, r.started_eq, r.failed_eq]
      refine ⟨hm.1, ?_, hm.2.2.1, ?_⟩
      · rw [Finset.mem_union]
        rintro (hh | hh)
        · exact hm.2.1 hh
        · exact hnl (List.mem_toFinset.mp hh)
      · rw [Finset.mem_union]
        rintro (hh | hh)
        · exact hm.2.2.2 hh
        · exact hnups (List.mem_toFinset.mp hh)

/-- Witness for C1 on a concrete two-object chain (`1` depends on `0`): after
the first loop iteration from the initial configuration, `1` is still
pending. -/
theorem claim_C1_witness :
    (1 : Nat) ∈ (tickResult [0, 1] gdChain [0, 1]
      (init (ρ := Nat) [0, 1])).state.pending :=
  (claim_C1_admission_gated [0, 1] fOk gdChain (init [0, 1]) _ 1
      Relation.ReflTransGen.refl (Step.tick _ [0, 1] (by decide) rfl)).2
    (by decide) (by decide) (by decide)

/-- Claim C2: in any admission pass over an enumeration of the pending set, a
pending object with a dependency already in `failed` is itself added to
`failed`, is not started, and the `(o, None, UpstreamError())` event is put on
the queue; and once an object is in `failed` without having been started, no
later step of the run ever starts it, so its work function is never invoked. -/
theorem claim_C2_upstream_shortcut (objects : List α) (func : α → Except PyExc ρ)
    (get_deps : α → List α) (st : State α) (pend : List α) (o d : α)
    (c c' : Config α ρ)
    (henum : PendEnum st pend) (ho : o ∈ st.pending) (hd : d ∈ get_deps o)
    (hdf : d ∈ st.failed)
    (hcc' : Relation.ReflTransGen (Step objects func get_deps) c c')
    (hof : o ∈ c.state.failed) (hos : o ∉ c.state.started) :
    o ∈ (feed_queue (ρ := ρ) objects get_deps pend st).1.failed ∧
    o ∉ (feed_queue (ρ := ρ) objects get_deps pend st).1.started ∧
    upEvent o ∈ (feed_queue (ρ := ρ) objects get_deps pend st).2.1 ∧
    o ∈ c'.state.failed ∧ o ∉ c'.state.started := by
  have r := feedAux_spec objects get_deps pend st
  have hop : o ∈ pend := by
    rw [← List.mem_toFinset, henum.2]
    exact ho
  have hups : o ∈ (feedAux objects get_deps pend st).ups :=
    r.ups_complete o hop ⟨d, hd, hdf⟩
  have hfq1 : (feed_queue (ρ := ρ) objects get_deps pend st).1 =
      (feedAux objects get_deps pend st).st := rfl
  refine ⟨?_, ?_, ?_, ?_, ?_⟩
  · rw [hfq1, r.failed_eq]
    exact Finset.mem_union_right _ (List.mem_toFinset.mpr hups)
  · rw [hfq1, r.started_eq]
    rw [Finset.mem_union]
    rintro (hh | hh)
    · exact (mem_pending_iff.mp ho).2.1 hh
    · exact (List.nodup_append.mp (r.tok henum.1)).2.2 hups (List.mem_toFinset.mp hh)
  · show upEvent o ∈ (feedAux objects get_deps pend st).ups.map upEvent ++ _
    exact List.mem_append.mpr (Or.inl (List.mem_map.mpr ⟨o, hups, rfl⟩))
  · exact (steps_not_started_of_failed hcc' hof hos).1
  · exact (steps_not_started_of_failed hcc' hof hos).2

/-- Witness for C2 on a concrete state where `0` has already failed and `1`
(which depends on `0`) is pending. -/
theorem claim_C2_witness :
    (1 : Nat) ∈ (feed_queue (ρ := Nat) [0, 1] gdChain [1]
      ⟨[0, 1], {0}, ∅, {0}⟩).1.failed ∧
    (1 : Nat) ∉ (feed_queue (ρ := Nat) [0, 1] gdChain [1]
      ⟨[0, 1], {0}, ∅, {0}⟩).1.started ∧
    upEvent 1 ∈ (feed_queue (ρ := Nat) [0, 1] gdChain [1]
      ⟨[0, 1], {0}, ∅, {0}⟩).2.1 ∧
    (1 : Nat) ∈ (⟨⟨[0, 1], {0}, ∅, {0, 1}⟩, [], [], [], false⟩
      : Config Nat Nat).state.failed ∧
    (1 : Nat) ∉ (⟨⟨[0, 1], {0}, ∅, {0, 1}⟩, [], [], [], false⟩
      : Config Nat Nat).state.started :=
  claim_C2_upstream_shortcut [0, 1] fOk gdChain ⟨[0, 1], {0}, ∅, {0}⟩ [1] 1 0
    ⟨⟨[0, 1], {0}, ∅, {0, 1}⟩, [], [], [], false⟩
    ⟨⟨[0, 1], {0}, ∅, {0, 1}⟩, [], [], [], false⟩
    (by decide) (by decide) (by decide) (by decide)
    Relation.ReflTransGen.refl (by decide) (by decide)

/-- Claim C4: along any step of a reachable run, `started`, `finished` and
`failed` only grow; an object enters `started` only from `pending` (so at most
once); no object is ever in both `finished` and `failed`; a terminal object
never re-enters `pending` or changes its `started` membership; and the
`pending()`/`is_done()` contracts hold. -/
theorem claim_C4_state_invariants (objects : List α) (func : α → Except PyExc ρ)
    (get_deps : α → List α) (c c' : Config α ρ) (o : α)
    (hr : Reach objects func get_deps c) (hstep : Step objects func get_deps c c') :
    (o ∈ c.state.started → o ∈ c'.state.started) ∧
    (o ∈ c.state.finished → o ∈ c'.state.finished) ∧
    (o ∈ c.state.failed → o ∈ c'.state.failed) ∧
    (o ∉ c.state.started → o ∈ c'.state.started → o ∈ c.state.pending) ∧
    ¬ (o ∈ c'.state.finished ∧ o ∈ c'.state.failed) ∧
    ((o ∈ c.state.finished ∨ o ∈ c.state.failed) →
      o ∉ c'.state.pending ∧ (o ∈ c'.state.started ↔ o ∈ c.state.started)) ∧
    c.state.pending =
      ((c.state.objects.toFinset \ c.state.started) \ c.state.finished)
        \ c.state.failed ∧
    (c.state.is_done = true ↔
      c.state.finished.card + c.state.failed.card ≥ c.state.objects.length) := by
  have hinv := inv_reach hr
  have hinv' := inv_step hinv hstep
  have hm := step_mono hstep
  refine ⟨fun hh => hm.2.1 hh, fun hh => hm.2.2.1 hh, fun hh => hm.2.2.2 hh,
    step_new_started hstep, ?_, ?_, rfl, by simp [State.is_done]⟩
  · rintro ⟨h1, h2⟩
    exact hinv'.fin_failed o h1 h2
  · intro hterm
    refine ⟨?_, ?_, fun hh => hm.2.1 hh⟩
    · intro hcon
      have hmp := mem_pending_iff.mp hcon
      rcases hterm with hh | hh
      · exact hmp.2.2.1 (hm.2.2.1 hh)
      · exact hmp.2.2.2 (hm.2.2.2 hh)
    · intro hs'
      by_contra hns
      have hp := step_new_started hstep hns hs'
      have hmp := mem_pending_iff.mp hp
      rcases hterm with hh | hh
      · exact hmp.2.2.1 hh
      · exact hmp.2.2.2 hh

/-- Witness for C4: on the first iteration of the two-object chain no object
ends up in both `finished` and `failed`. -/
theorem claim_C4_witness :
    ¬ ((0 : Nat) ∈ (tickResult [0, 1] gdChain [0, 1]
        (init (ρ := Nat) [0, 1])).state.finished ∧
      (0 : Nat) ∈ (tickResult [0, 1] gdChain [0, 1]
        (init (ρ := Nat) [0, 1])).state.failed) :=
  (claim_C4_state_invariants [0, 1] fOk gdChain (init [0, 1]) _ 0
      Relation.ReflTransGen.refl (Step.tick _ [0, 1] (by decide) rfl)).2.2.2.2.1


theorem no_stall_pending {objects : List α} {func : α → Except PyExc ρ}
    {get_deps : α → List α} {c : Config α ρ}
    (h : Inv objects func get_deps c) (hacy : AcyclicOn objects get_deps)
    (hinfl : c.inflight = []) (hq : c.queue = [])
    (hups : (feedAux objects get_deps c.state.pending.toList c.state).ups = [])
    (hlaunch : (feedAux objects get_deps c.state.pending.toList c.state).launch = [])
    (hne : c.state.pending.Nonempty) : False := by
  have r := feedAux_spec objects get_deps c.state.pending.toList c.state
  have hterm := started_terminal_of_drained h hinfl hq
  have hdep : ∀ o ∈ c.state.pending, ∃ d ∈ get_deps o, d ∈ c.state.pending := by
    intro o ho
    have hol : o ∈ c.state.pending.toList := Finset.mem_toList.mpr ho
    rcases r.trichot o hol with hh | hh | hh
    · rw [hups] at hh; exact absurd hh (List.not_mem_nil o)
    · rw [hlaunch] at hh; exact absurd hh (List.not_mem_nil o)
    · obtain ⟨hnofail, d, hd, hdobj, hdnfin⟩ := hh
      refine ⟨d, hd, ?_⟩
      rw [mem_pending_iff]
      have hdU : d ∈ c.state.objects.toFinset := by
        rw [h.objs]; exact List.mem_toFinset.mpr hdobj
      refine ⟨hdU, ?_, hdnfin, hnofail d hd⟩
      intro hdst
      rcases hterm d hdst with hh' | hh'
      · exact hdnfin hh'
      · exact hnofail d hd hh'
  have hsub : c.state.pending ∈ objects.toFinset.powerset := by
    rw [Finset.mem_powerset]
    intro x hx
    have := (mem_pending_iff.mp hx).1
    rw [h.objs] at this
    exact this
  obtain ⟨o, hoS, hmin⟩ := hacy c.state.pending hsub hne
  obtain ⟨d, hd, hdS⟩ := hdep o hoS
  exact hmin d hd hdS

theorem dup_progress {objects : List α} {func : α → Except PyExc ρ}
    {get_deps : α → List α} {c : Config α ρ}
    (h : Inv objects func get_deps c) (hacy : AcyclicOn objects get_deps)
    (hdup : ¬ objects.Nodup) (hns : c.stopped = false)
    (hneU : (c.state.objects.toFinset \
      (c.state.started ∪ c.state.failed)).Nonempty) :
    ∃ c', Step objects func get_deps c c' ∧ phi c' < phi c := by
  rcases hie : c.inflight with _ | ⟨o, irest⟩
  · have hp : PendEnum c.state c.state.pending.toList :=
      ⟨Finset.nodup_toList _, by simp⟩
    refine ⟨tickResult objects get_deps c.state.pending.toList c,
      Step.tick c c.state.pending.toList hp hns, ?_⟩
    have hmid := inv_feedApply h hp hns
    have hphi := phi_feedApply h hp hns
    set mid := feedApply objects get_deps c.state.pending.toList c with hmidd
    have hmidns : mid.stopped = false := by
      rw [hmidd, feedApply_stopped]; exact hns
    rw [tickResult_eq, ← hmidd]
    set A := feedAux objects get_deps c.state.pending.toList c.state with hA
    rcases hmq : mid.queue with _ | ⟨q, qrest⟩
    · have hcc : consume mid = mid := by rw [consume.eq_def, hmq]
      rw [hcc]
      have hemp : c.queue = [] ∧ A.ups = [] := by
        rw [hmidd, feedApply_queue, ← hA] at hmq
        rcases List.append_eq_nil.mp hmq with ⟨h1, h2⟩
        rcases List.append_eq_nil.mp h2 with ⟨h3, _⟩
        exact ⟨h1, List.map_eq_nil.mp h3⟩
      by_cases hl : A.launch = []
      · exfalso
        obtain ⟨x, hx⟩ := hneU
        rw [Finset.mem_sdiff] at hx
        have hxp : x ∈ c.state.pending := by
          rw [mem_pending_iff]
          refine ⟨hx.1, fun hcon => hx.2 (Finset.mem_union_left _ hcon), ?_,
            fun hcon => hx.2 (Finset.mem_union_right _ hcon)⟩
          intro hcon
          exact hx.2 (Finset.mem_union_left _ (h.fin_started hcon))
        exact no_stall_pending h hacy hie hemp.1
          (by rw [← hA]; exact hemp.2) (by rw [← hA]; exact hl) ⟨x, hxp⟩
      · have : A.launch.length ≠ 0 := fun hcon => hl (List.length_eq_zero.mp hcon)
        omega
    · rcases q with _ | e
      · exfalso
        have hstop : QItem.stop ∈ mid.queue := by
          rw [hmq]; exact List.mem_cons_self _ _
        have h1 := hmid.stop_done hstop
        have h2 := dup_not_done hmid hdup
        rw [h1] at h2
        exact Bool.noConfusion h2
      · have := phi_consume_ev hmid hmidns hmq
        omega
  · have ho : o ∈ c.inflight := by rw [hie]; exact List.mem_cons_self _ _
    refine ⟨_, Step.deliver c o ho hns, ?_⟩
    set y : Config α ρ := { c with
      inflight := c.inflight.erase o,
      queue := c.queue ++ [QItem.ev (producer func o)] } with hy
    have hys : y.stopped = false := by rw [hy]; exact hns
    have hy1 : y.state = c.state := by rw [hy]
    have hy4 : y.inflight = c.inflight.erase o := by rw [hy]
    have hy5 : y.queue = c.queue ++ [QItem.ev (producer func o)] := by rw [hy]
    rw [phi_of_not_stopped hns, phi_of_not_stopped hys, hy1, hy4, hy5]
    have hlen : (c.inflight.erase o).length + 1 = c.inflight.length := by
      rw [List.length_erase_of_mem ho]
      have : c.inflight.length ≠ 0 := by
        rw [hie]; simp
      omega
    have hqlen : ((c.queue ++ [QItem.ev (producer func o)]).filterMap QItem.obj?).length
        = (c.queue.filterMap QItem.obj?).length + 1 := by
      rw [List.filterMap_append]
      simp [QItem.obj?]
    rw [hqlen]
    omega

theorem dup_reach_admit {objects : List α} {func : α → Except PyExc ρ}
    {get_deps : α → List α}
    (hacy : AcyclicOn objects get_deps) (hdup : ¬ objects.Nodup) :
    ∀ (n : Nat) (c : Config α ρ), Inv objects func get_deps c → phi c ≤ n →
      ∃ c', Relation.ReflTransGen (Step objects func get_deps) c c' ∧
        objects.toFinset ⊆ c'.state.started ∪ c'.state.failed := by
  intro n
  induction n with
  | zero =>
    intro c h hphi
    exfalso
    have hstp : c.stopped = true := by
      by_contra hnsx
      have hns' : c.stopped = false := Bool.eq_false_iff.mpr hnsx
      rw [phi_of_not_stopped hns'] at hphi
      omega
    have h1 := h.stopped_done hstp
    have h2 := dup_not_done h hdup
    rw [h1] at h2
    exact Bool.noConfusion h2
  | succ n ih =>
    intro c h hphi
    by_cases hcov : objects.toFinset ⊆ c.state.started ∪ c.state.failed
    · exact ⟨c, Relation.ReflTransGen.refl, hcov⟩
    · have hns : c.stopped = false := by
        by_contra hnsx
        have hstp : c.stopped = true := by
          revert hnsx; cases c.stopped <;> simp
        have h1 := h.stopped_done hstp
        have h2 := dup_not_done h hdup
        rw [h1] at h2
        exact Bool.noConfusion h2
      have hneU : (c.state.objects.toFinset \
          (c.state.started ∪ c.state.failed)).Nonempty := by
        rw [Finset.not_subset] at hcov
        obtain ⟨x, hx1, hx2⟩ := hcov
        exact ⟨x, Finset.mem_sdiff.mpr ⟨by rw [h.objs]; exact hx1, hx2⟩⟩
      obtain ⟨c1, hstep, hlt⟩ := dup_progress h hacy hdup hns hneU
      obtain ⟨c', hrtc, hcov'⟩ := ih c1 (inv_step h hstep) (by omega)
      exact ⟨c', Relation.ReflTransGen.head hstep hrtc, hcov'⟩

theorem step_tick_eq {objects : List α} {func : α → Except PyExc ρ}
    {get_deps : α → List α} (c c' : Config α ρ) (pend : List α)
    (hp : PendEnum c.state pend) (hs : c.stopped = false)
    (he : tickResult objects get_deps pend c = c') :
    Step objects func get_deps c c' :=
  he ▸ Step.tick c pend hp hs

theorem step_deliver_eq {objects : List α} {func : α → Except PyExc ρ}
    {get_deps : α → List α} (c c' : Config α ρ) (o : α) (ho : o ∈ c.inflight)
    (hs : c.stopped = false)
    (he : { c with
      inflight := c.inflight.erase o,
      queue := c.queue ++ [QItem.ev (producer func o)] } = c') :
    Step objects func get_deps c c' :=
  he ▸ Step.deliver c o ho hs

/-- Claim C3: with an acyclic dependency relation and (amending the claim) a
duplicate-free object list, every reachable configuration can be extended to a
stopped one whose yielded event sequence is finite — as long as the object
list — and holds exactly one event per object of the universe, none skipped
and none duplicated. -/
theorem claim_C3_exactly_one_event (objects : List α) (func : α → Except PyExc ρ)
    (get_deps : α → List α) (c : Config α ρ)
    (hacy : AcyclicOn objects get_deps) (hnodup : objects.Nodup)
    (hr : Reach objects func get_deps c) :
    ∃ c', Relation.ReflTransGen (Step objects func get_deps) c c' ∧
      c'.stopped = true ∧ c'.events.length = objects.length ∧
      ∀ o, countE c'.events o = if o ∈ objects then 1 else 0 := by
  obtain ⟨c', hrtc, hstp⟩ := reach_stop hacy hnodup (inv_reach hr)
  have hinv' := inv_rtc (inv_reach hr) hrtc
  have hcount := stopped_event_count hinv' hstp
  obtain ⟨hnd, hiff⟩ := hinv'.stopped_events hstp
  have h1 : (c'.events.map OutEvent.obj).toFinset = objects.toFinset := by
    ext a
    simp only [List.mem_toFinset]
    exact hiff a
  have a1 : (c'.events.map OutEvent.obj).toFinset.card =
      (c'.events.map OutEvent.obj).length := List.toFinset_card_of_nodup hnd
  have a2 : objects.toFinset.card = objects.length :=
    List.toFinset_card_of_nodup hnodup
  have a3 : (c'.events.map OutEvent.obj).length = c'.events.length := by simp
  rw [h1] at a1
  exact ⟨c', hrtc, hstp, by omega, hcount⟩

/-- Witness for C3 on the two-object chain run from its initial
configuration. -/
theorem claim_C3_witness :
    ∃ c', Relation.ReflTransGen (Step [0, 1] fOk gdChain)
        (init (ρ := Nat) [0, 1]) c' ∧
      c'.stopped = true ∧ c'.events.length = 2 ∧
      ∀ o, countE c'.events o = if o ∈ ([0, 1] : List Nat) then 1 else 0 :=
  claim_C3_exactly_one_event [0, 1] fOk gdChain (init [0, 1]) (by decide)
    (by decide) Relation.ReflTransGen.refl

/-- Counterexample for C3 as stated: the list `[0, 0]` names one object twice;
its dependency relation is acyclic and its work function total and successful,
yet no reachable configuration of the run ever stops, so the event sequence is
not finite. -/
theorem claim_C3_counterexample :
    AcyclicOn [0, 0] gdNone ∧ (∀ x, ∃ r, fOk x = Except.ok r) ∧
    ∀ c' : Config Nat Nat, Reach [0, 0] fOk gdNone c' → c'.stopped = false := by
  refine ⟨by decide, fun x => ⟨0, rfl⟩, ?_⟩
  intro c' hr
  have hinv := inv_reach hr
  have hnd := dup_not_done hinv (by decide)
  by_contra hcon
  have hstp : c'.stopped = true := by
    revert hcon; cases c'.stopped <;> simp
  have h1 := hinv.stopped_done hstp
  rw [h1] at hnd
  exact Bool.noConfusion hnd

/-- Claim C8: amending the claim, a dependency cycle stalls the run only when
no failure breaks it: if a nonempty set of objects is cyclic (each member has
a dependency in the set) and the work function never raises, then in every
reachable configuration every cycle member is still pending — never started,
failed, or finished — the run is never done, never stops, and no `STOP`
sentinel is ever queued. -/
theorem claim_C8_cycle_stall (objects : List α) (func : α → Except PyExc ρ)
    (get_deps : α → List α) (S : Finset α) (c : Config α ρ)
    (hS : ∀ s ∈ S, s ∈ objects) (hne : S.Nonempty)
    (hcyc : ∀ s ∈ S, ∃ d ∈ get_deps s, d ∈ S)
    (hok : ∀ x, ∃ r, func x = Except.ok r)
    (hr : Reach objects func get_deps c) :
    (∀ s ∈ S, s ∈ c.state.pending ∧ s ∉ c.state.started ∧
      s ∉ c.state.failed ∧ s ∉ c.state.finished) ∧
    c.state.is_done = false ∧ c.stopped = false ∧ QItem.stop ∉ c.queue := by
  obtain ⟨hfail, hstart⟩ := cyc_preserved hS hcyc hok hr
  have hinv := inv_reach hr
  have hsS : ∀ s ∈ S, s ∈ c.state.pending ∧ s ∉ c.state.started ∧
      s ∉ c.state.failed ∧ s ∉ c.state.finished := by
    intro s hs
    have h1 : s ∉ c.state.started := hstart s hs
    have h2 : s ∉ c.state.failed := by
      rw [hfail]; exact Finset.not_mem_empty s
    have h3 : s ∉ c.state.finished := fun hcon => h1 (hinv.fin_started hcon)
    refine ⟨mem_pending_iff.mpr ⟨?_, h1, h3, h2⟩, h1, h2, h3⟩
    rw [hinv.objs]
    exact List.mem_toFinset.mpr (hS s hs)
  have hSsub : S ⊆ objects.toFinset :=
    fun x hx => List.mem_toFinset.mpr (hS x hx)
  have hdone : c.state.is_done = false := by
    have hfin_sub : c.state.finished ⊆ objects.toFinset \ S := by
      intro x hx
      rw [Finset.mem_sdiff]
      exact ⟨hinv.started_sub (hinv.fin_started hx),
        fun hxS => (hsS x hxS).2.2.2 hx⟩
    have hcard1 : c.state.finished.card ≤ (objects.toFinset \ S).card :=
      Finset.card_le_card hfin_sub
    have hcard2 : (objects.toFinset \ S).card =
        objects.toFinset.card - S.card := Finset.card_sdiff hSsub
    have hScard : 1 ≤ S.card := Finset.card_pos.mpr hne
    have hSle : S.card ≤ objects.toFinset.card := Finset.card_le_card hSsub
    have hlen : objects.toFinset.card ≤ objects.length :=
      List.toFinset_card_le objects
    have hfailcard : c.state.failed.card = 0 := by
      rw [hfail]; rfl
    simp only [State.is_done, hinv.objs, decide_eq_false_iff_not, not_le]
    omega
  refine ⟨hsS, hdone, ?_, ?_⟩
  · by_contra hcon
    have hstp : c.stopped = true := by
      revert hcon; cases c.stopped <;> simp
    have h1 := hinv.stopped_done hstp
    rw [h1] at hdone
    exact Bool.noConfusion hdone
  · intro hstop
    have h1 := hinv.stop_done hstop
    rw [h1] at hdone
    exact Bool.noConfusion hdone

/-- Witness for C8: the self-dependent object `1` of the cycle run with a
never-failing work function is still pending at the initial configuration,
which is not done and not stopped. -/
theorem claim_C8_witness :
    (∀ s ∈ ({1} : Finset Nat), s ∈ (init (ρ := Nat) [1, 2]).state.pending ∧
      s ∉ (init (ρ := Nat) [1, 2]).state.started ∧
      s ∉ (init (ρ := Nat) [1, 2]).state.failed ∧
      s ∉ (init (ρ := Nat) [1, 2]).state.finished) ∧
    (init (ρ := Nat) [1, 2]).state.is_done = false ∧
    (init (ρ := Nat) [1, 2]).stopped = false ∧
    QItem.stop ∉ (init (ρ := Nat) [1, 2]).queue :=
  claim_C8_cycle_stall [1, 2] fOk gdCyc {1} (init [1, 2]) (by decide) (by decide)
    (by decide) (fun x => ⟨0, rfl⟩) Relation.ReflTransGen.refl

/-- Counterexample for C8 as stated: `1` depends on itself (a cycle in the
universe `[1, 2]`), yet with a work function that fails on `2` the run reaches
a stopped, done configuration — the upstream-failure cascade breaks the cycle,
so a cyclic graph does not always stall. -/
theorem claim_C8_counterexample :
    ((1 : Nat) ∈ gdCyc 1 ∧ (1 : Nat) ∈ ([1, 2] : List Nat)) ∧
    Reach [1, 2] fCyc gdCyc
      ⟨⟨[1, 2], {2}, ∅, {1, 2}⟩, [QItem.stop], [],
        [⟨2, none, some (PyExc.other "x")⟩, ⟨1, none, some PyExc.upstream⟩],
        true⟩ ∧
    (⟨⟨[1, 2], {2}, ∅, {1, 2}⟩, [QItem.stop], [],
        [⟨2, none, some (PyExc.other "x")⟩, ⟨1, none, some PyExc.upstream⟩],
        true⟩ : Config Nat Nat).stopped = true ∧
    (⟨[1, 2], {2}, ∅, {1, 2}⟩ : State Nat).is_done = true := by
  refine ⟨⟨by decide, by decide⟩, ?_, rfl, by decide⟩
  show Relation.ReflTransGen (Step [1, 2] fCyc gdCyc) (init [1, 2]) _
  have s1 : Step [1, 2] fCyc gdCyc (init [1, 2])
      ⟨⟨[1, 2], {2}, ∅, ∅⟩, [], [2], [], false⟩ :=
    step_tick_eq _ _ [1, 2] (by decide) rfl (by decide)
  have s2 : Step [1, 2] fCyc gdCyc ⟨⟨[1, 2], {2}, ∅, ∅⟩, [], [2], [], false⟩
      ⟨⟨[1, 2], {2}, ∅, ∅⟩, [QItem.ev ⟨2, none, some (PyExc.other "x")⟩],
        [], [], false⟩ :=
    step_deliver_eq _ _ 2 (by decide) rfl (by decide)
  have s3 : Step [1, 2] fCyc gdCyc
      ⟨⟨[1, 2], {2}, ∅, ∅⟩, [QItem.ev ⟨2, none, some (PyExc.other "x")⟩],
        [], [], false⟩
      ⟨⟨[1, 2], {2}, ∅, {2}⟩, [], [], [⟨2, none, some (PyExc.other "x")⟩],
        false⟩ :=
    step_tick_eq _ _ [1] (by decide) rfl (by decide)
  have s4 : Step [1, 2] fCyc gdCyc
      ⟨⟨[1, 2], {2}, ∅, {2}⟩, [], [], [⟨2, none, some (PyExc.other "x")⟩],
        false⟩
      ⟨⟨[1, 2], {2}, ∅, {1, 2}⟩, [QItem.stop], [],
        [⟨2, none, some (PyExc.other "x")⟩, ⟨1, none, some PyExc.upstream⟩],
        false⟩ :=
    step_tick_eq _ _ [1] (by decide) rfl (by decide)
  have s5 : Step [1, 2] fCyc gdCyc
      ⟨⟨[1, 2], {2}, ∅, {1, 2}⟩, [QItem.stop], [],
        [⟨2, none, some (PyExc.other "x")⟩, ⟨1, none, some PyExc.upstream⟩],
        false⟩
      ⟨⟨[1, 2], {2}, ∅, {1, 2}⟩, [QItem.stop], [],
        [⟨2, none, some (PyExc.other "x")⟩, ⟨1, none, some PyExc.upstream⟩],
        true⟩ :=
    step_tick_eq _ _ [] (by decide) rfl (by decide)
  exact ((((Relation.ReflTransGen.refl.tail s1).tail s2).tail s3).tail s4).tail s5

/-- Claim C9: when the object list holds a duplicate, no reachable
configuration is ever done, the loop never stops, no `STOP` sentinel is ever
queued — the event sequence never terminates — yet each distinct object yields
at most one event, and (for an acyclic dependency relation) the run still
makes full progress: some extension hands every distinct object to a worker or
to the upstream-failure path. -/
theorem claim_C9_duplicates_never_done (objects : List α)
    (func : α → Except PyExc ρ) (get_deps : α → List α) (c : Config α ρ)
    (hdup : ¬ objects.Nodup) (hacy : AcyclicOn objects get_deps)
    (hr : Reach objects func get_deps c) :
    c.state.is_done = false ∧ c.stopped = false ∧ QItem.stop ∉ c.queue ∧
    (∀ o, countE c.events o ≤ 1) ∧
    ∃ c', Relation.ReflTransGen (Step objects func get_deps) c c' ∧
      objects.toFinset ⊆ c'.state.started ∪ c'.state.failed ∧
      c'.state.is_done = false := by
  have hinv := inv_reach hr
  have hnd := dup_not_done hinv hdup
  refine ⟨hnd, ?_, ?_, ?_, ?_⟩
  · by_contra hcon
    have hstp : c.stopped = true := by
      revert hcon; cases c.stopped <;> simp
    have h1 := hinv.stopped_done hstp
    rw [h1] at hnd
    exact Bool.noConfusion hnd
  · intro hstop
    have h1 := hinv.stop_done hstop
    rw [h1] at hnd
    exact Bool.noConfusion hnd
  · intro o
    have h1 := List.nodup_iff_count_le_one.mp (events_nodup hinv) o
    simpa [countE] using h1
  · obtain ⟨c', hrtc, hcov⟩ :=
      dup_reach_admit hacy hdup (phi c) c hinv (Nat.le_refl _)
    exact ⟨c', hrtc, hcov, dup_not_done (inv_rtc hinv hrtc) hdup⟩

/-- Witness for C9 at the initial configuration of the duplicated list
`[0, 0]`. -/
theorem claim_C9_witness :
    (init (ρ := Nat) [0, 0]).state.is_done = false ∧
    (init (ρ := Nat) [0, 0]).stopped = false ∧
    QItem.stop ∉ (init (ρ := Nat) [0, 0]).queue ∧
    (∀ o, countE (init (ρ := Nat) [0, 0]).events o ≤ 1) ∧
    ∃ c', Relation.ReflTransGen (Step [0, 0] fOk gdNone)
        (init (ρ := Nat) [0, 0]) c' ∧
      ([0, 0] : List Nat).toFinset ⊆ c'.state.started ∪ c'.state.failed ∧
      c'.state.is_done = false :=
  claim_C9_duplicates_never_done [0, 0] fOk gdNone (init [0, 0]) (by decide)
    (by decide) Relation.ReflTransGen.refl


theorem getLast?_of_ne_nil {β : Type} :
    ∀ l : List β, l ≠ [] → ∃ v, l.getLast? = some v := by
  intro l
  induction l with
  | nil => intro h; exact absurd rfl h
  | cons a t ih =>
    intro h
    rcases t with _ | ⟨b, t'⟩
    · exact ⟨a, rfl⟩
    · obtain ⟨v, hv⟩ := ih (by simp)
      exact ⟨v, by rw [List.getLast?_cons_cons, hv]⟩

theorem entryOf_key (get_name : α → String) (e : OutEvent α ρ)
    (q : String × ErrVal) (h : entryOf get_name e = some q) :
    q.1 = get_name e.obj := by
  rcases he : e.err with _ | pe
  · have h0 : entryOf get_name e = none := by rw [entryOf, he]
    rw [h0] at h
    exact Option.noConfusion h
  · rcases pe with expl | m0 | _ | d
    · have h0 : entryOf get_name e =
          some (get_name e.obj, ErrVal.str expl) := by rw [entryOf, he]
      rw [h0] at h
      injection h with h1
      rw [← h1]
    · have h0 : entryOf get_name e =
          some (get_name e.obj, ErrVal.str m0) := by rw [entryOf, he]
      rw [h0] at h
      injection h with h1
      rw [← h1]
    · have h0 : entryOf get_name e = none := by rw [entryOf, he]
      rw [h0] at h
      exact Option.noConfusion h
    · have h0 : entryOf get_name e =
          some (get_name e.obj, ErrVal.exc (PyExc.other d)) := by rw [entryOf, he]
      rw [h0] at h
      injection h with h1
      rw [← h1]

theorem lookupErr_eq_none (k : String) :
    ∀ l : List (String × ErrVal), (∀ p ∈ l, p.1 ≠ k) → lookupErr k l = none := by
  intro l
  induction l with
  | nil => intro h; rfl
  | cons p rest ih =>
    intro h
    rw [lookupErr, if_neg (h p (List.mem_cons_self _ _))]
    exact ih (fun q hq => h q (List.mem_cons_of_mem _ hq))

theorem filter_key_singleton (k : String) (v : ErrVal) :
    ∀ l : List (String × ErrVal), (l.map Prod.fst).Nodup → (k, v) ∈ l →
      l.filter (fun p => decide (p.1 = k)) = [(k, v)] := by
  intro l
  induction l with
  | nil => intro _ h; exact absurd h (List.not_mem_nil _)
  | cons p rest ih =>
    intro hnd hm
    rw [List.map_cons, List.nodup_cons] at hnd
    rcases List.mem_cons.mp hm with rfl | hm'
    · have hrest : rest.filter (fun p => decide (p.1 = k)) = [] := by
        rw [List.filter_eq_nil_iff]
        intro q hq
        simp only [decide_eq_true_eq]
        intro hqk
        exact hnd.1 (by rw [← hqk]; exact List.mem_map.mpr ⟨q, hq, rfl⟩)
      simp [List.filter_cons, hrest]
    · have hpk : p.1 ≠ k := fun hcon => hnd.1 (by
        rw [hcon]
        exact List.mem_map.mpr ⟨(k, v), hm', rfl⟩)
      have htail := ih hnd.2 hm'
      simp [List.filter_cons, hpk, htail]

/-- Claim C5: amending the claim, an unexpected failure is recorded as
`errors[name] = the exception object itself` (stringified only when the
summary line is rendered), not the stringified error; draining continues —
every later successful event still contributes its result — the full output is
the status lines followed by the per-error summary block, and exactly one
unexpected error (the last one yielded) is re-raised after the run has
drained. -/
theorem claim_C5_unexpected_recorded_and_reraised (objects : List α)
    (get_name : α → String) (msg : Option String)
    (events : List (OutEvent α ρ)) (e0 : PyExc)
    (hlast : (unexpectedErrs events).getLast? = some e0) :
    (aggStateOf objects get_name msg events).toReraise = some e0 ∧
    (parallel_execute objects get_name msg events).2 = Except.error e0 ∧
    (parallel_execute objects get_name msg events).1 =
      (aggStateOf objects get_name msg events).out ++
        runSummary (aggStateOf objects get_name msg events) ∧
    (aggStateOf objects get_name msg events).results.length =
      events.countP (fun e => e.err.isNone) ∧
    (∀ e ∈ events, ∀ d : String, e.err = some (PyExc.other d) →
      lookupErr (get_name e.obj)
        (aggStateOf objects get_name msg events).errors ≠ none) ∧
    ∀ (s : AggState ρ) (e : OutEvent α ρ) (d : String),
      e.err = some (PyExc.other d) →
      handleEvent get_name msg (aggLines objects get_name msg) s e =
        { s with
          errors := dictInsert (get_name e.obj)
            (ErrVal.exc (PyExc.other d)) s.errors,
          toReraise := some (PyExc.other d) } := by
  have h1 : (aggStateOf objects get_name msg events).toReraise = some e0 := by
    have h0 := aggRun_toReraise get_name msg (aggLines objects get_name msg)
      events (⟨[], [], none, aggRegisterOut objects get_name msg⟩ : AggState ρ)
    rw [hlast] at h0
    exact h0
  refine ⟨h1, ?_, rfl, ?_, ?_, ?_⟩
  · have h2 : (parallel_execute objects get_name msg events).2 =
        match (aggStateOf objects get_name msg events).toReraise with
        | some e => Except.error e
        | none => Except.ok ((aggStateOf objects get_name msg events).results,
            (aggStateOf objects get_name msg events).errors) := rfl
    rw [h2, h1]
  · have h0 := aggRun_results get_name msg (aggLines objects get_name msg)
      events (⟨[], [], none, aggRegisterOut objects get_name msg⟩ : AggState ρ)
    simpa using h0
  · intro e he d hed
    have hentry : entryOf get_name e =
        some (get_name e.obj, ErrVal.exc (PyExc.other d)) := by
      rw [entryOf, hed]
    have hmem : (get_name e.obj, ErrVal.exc (PyExc.other d)) ∈
        events.filterMap (entryOf get_name) :=
      List.mem_filterMap.mpr ⟨e, he, hentry⟩
    have hv : ErrVal.exc (PyExc.other d) ∈
        errEntriesFor get_name (get_name e.obj) events := by
      rw [errEntriesFor]
      exact List.mem_map.mpr ⟨(get_name e.obj, ErrVal.exc (PyExc.other d)),
        List.mem_filter.mpr ⟨hmem, by simp⟩, rfl⟩
    obtain ⟨v, hgl⟩ := getLast?_of_ne_nil
      (errEntriesFor get_name (get_name e.obj) events)
      (fun hcon => by rw [hcon] at hv; exact List.not_mem_nil _ hv)
    have hlk := aggRun_lookup get_name msg (aggLines objects get_name msg)
      events (⟨[], [], none, aggRegisterOut objects get_name msg⟩ : AggState ρ)
      (get_name e.obj)
    rw [hgl] at hlk
    have hlk2 : lookupErr (get_name e.obj)
        (aggStateOf objects get_name msg events).errors = some v := hlk
    rw [hlk2]
    simp
  · intro s e d hed
    exact handleEvent_other get_name msg (aggLines objects get_name msg) s e d hed

/-- Witness for C5 on a single-object run whose one event carries an
unexpected error. -/
theorem claim_C5_witness :
    (aggStateOf [0] natName none
        [(⟨0, none, some (PyExc.other "boom")⟩ : OutEvent Nat Nat)]).toReraise =
      some (PyExc.other "boom") ∧
    (parallel_execute [0] natName none
        [(⟨0, none, some (PyExc.other "boom")⟩ : OutEvent Nat Nat)]).2 =
      Except.error (PyExc.other "boom") ∧
    (parallel_execute [0] natName none
        [(⟨0, none, some (PyExc.other "boom")⟩ : OutEvent Nat Nat)]).1 =
      (aggStateOf [0] natName none
        [(⟨0, none, some (PyExc.other "boom")⟩ : OutEvent Nat Nat)]).out ++
        runSummary (aggStateOf [0] natName none
          [(⟨0, none, some (PyExc.other "boom")⟩ : OutEvent Nat Nat)]) ∧
    (aggStateOf [0] natName none
        [(⟨0, none, some (PyExc.other "boom")⟩ : OutEvent Nat Nat)]).results.length =
      [(⟨0, none, some (PyExc.other "boom")⟩ : OutEvent Nat Nat)].countP
        (fun e => e.err.isNone) ∧
    (∀ e ∈ [(⟨0, none, some (PyExc.other "boom")⟩ : OutEvent Nat Nat)],
      ∀ d : String, e.err = some (PyExc.other d) →
      lookupErr (natName e.obj)
        (aggStateOf [0] natName none
          [(⟨0, none, some (PyExc.other "boom")⟩ : OutEvent Nat Nat)]).errors ≠
        none) ∧
    ∀ (s : AggState Nat) (e : OutEvent Nat Nat) (d : String),
      e.err = some (PyExc.other d) →
      handleEvent natName none (aggLines [0] natName none) s e =
        { s with
          errors := dictInsert (natName e.obj)
            (ErrVal.exc (PyExc.other d)) s.errors,
          toReraise := some (PyExc.other d) } :=
  claim_C5_unexpected_recorded_and_reraised [0] natName none
    [⟨0, none, some (PyExc.other "boom")⟩] (PyExc.other "boom") rfl

/-- Counterexample for C5 as stated: the errors dict of a run with one
unexpected error holds the exception object itself, which is not the
stringified error (not a string at all). -/
theorem claim_C5_counterexample :
    lookupErr "0" (aggStateOf [0] natName none
        [(⟨0, none, some (PyExc.other "boom")⟩ : OutEvent Nat Nat)]).errors =
      some (ErrVal.exc (PyExc.other "boom")) ∧
    ∀ s : String, ErrVal.exc (PyExc.other "boom") ≠ ErrVal.str s :=
  ⟨rfl, fun s h => ErrVal.noConfusion h⟩

/-- Claim C6: an upstream-failure event only appends the "error" status-line
write to the output — it adds nothing to the errors dict — and an object all
of whose events are upstream failures appears neither in the final errors
dict (its key maps to nothing) nor in the summary block, which has exactly
one line per errors entry. -/
theorem claim_C6_upstream_not_in_errors (objects : List α)
    (get_name : α → String) (msg : Option String)
    (events : List (OutEvent α ρ)) (n : String)
    (hup : ∀ e ∈ events, get_name e.obj = n → e.err = some PyExc.upstream) :
    (∀ (s : AggState ρ) (e : OutEvent α ρ), e.err = some PyExc.upstream →
      handleEvent get_name msg (aggLines objects get_name msg) s e =
        { s with
          out := s.out ++
            pswWriteOut msg (aggLines objects get_name msg)
              (get_name e.obj) "error" }) ∧
    (∀ p ∈ (aggStateOf objects get_name msg events).errors, p.1 ≠ n) ∧
    lookupErr n (aggStateOf objects get_name msg events).errors = none ∧
    runSummary (aggStateOf objects get_name msg events) =
      ((aggStateOf objects get_name msg events).errors).map
        (fun p => summaryLine p.1 p.2) := by
  have hkey : ∀ p ∈ (aggStateOf objects get_name msg events).errors, p.1 ≠ n := by
    intro p hp hpn
    rcases aggRun_errors_keys get_name msg (aggLines objects get_name msg) events
      (⟨[], [], none, aggRegisterOut objects get_name msg⟩ : AggState ρ) p hp with
      hh | ⟨ev, hev, v, hv⟩
    · exact List.not_mem_nil p hh
    · have hk := entryOf_key get_name ev (p.1, v) hv
      have hname : get_name ev.obj = n := by rw [← hk]; exact hpn
      have hupev := hup ev hev hname
      have h0 : entryOf get_name ev = none := by rw [entryOf, hupev]
      rw [h0] at hv
      exact Option.noConfusion hv
  exact ⟨fun s e he => handleEvent_upstream get_name msg
      (aggLines objects get_name msg) s e he,
    hkey, lookupErr_eq_none n _ hkey, rfl⟩

/-- Witness for C6 on a two-object run whose second object fails upstream. -/
theorem claim_C6_witness :
    (∀ (s : AggState Nat) (e : OutEvent Nat Nat), e.err = some PyExc.upstream →
      handleEvent natName none (aggLines [0, 1] natName none) s e =
        { s with
          out := s.out ++
            pswWriteOut none (aggLines [0, 1] natName none)
              (natName e.obj) "error" }) ∧
    (∀ p ∈ (aggStateOf [0, 1] natName none
        [(⟨1, none, some PyExc.upstream⟩ : OutEvent Nat Nat)]).errors,
      p.1 ≠ "1") ∧
    lookupErr "1" (aggStateOf [0, 1] natName none
        [(⟨1, none, some PyExc.upstream⟩ : OutEvent Nat Nat)]).errors = none ∧
    runSummary (aggStateOf [0, 1] natName none
        [(⟨1, none, some PyExc.upstream⟩ : OutEvent Nat Nat)]) =
      ((aggStateOf [0, 1] natName none
        [(⟨1, none, some PyExc.upstream⟩ : OutEvent Nat Nat)]).errors).map
        (fun p => summaryLine p.1 p.2) :=
  claim_C6_upstream_not_in_errors [0, 1] natName none
    [⟨1, none, some PyExc.upstream⟩] "1" (by decide)

/-- Claim C7: for a registered name (progress enabled, `listIndex` finds it at
the index of its first registration) a status update emits, in order: cursor
up `diff` (`ESC[<diff>A`), erase-line (`ESC[2K` plus carriage return), the text
`"<message> <name> ... <status>"` plus carriage return, and cursor down `diff`
(`ESC[<diff>B`), where `diff` is the registry length minus the index of the
name's first registration. -/
theorem claim_C7_write_format (m : String) (lines : List String)
    (name status : String) (i : Nat)
    (hreg : listIndex name lines = some i) :
    pswWrite (some m) lines name status =
      some [esc ++ "[" ++ toString (lines.length - i) ++ "A",
            esc ++ "[2K" ++ "\r",
            m ++ " " ++ name ++ " ... " ++ status ++ "\r",
            esc ++ "[" ++ toString (lines.length - i) ++ "B"] ∧
    lines.get? i = some name ∧ name ∉ lines.take i := by
  refine ⟨?_, (listIndex_first name lines i hreg).1,
    (listIndex_first name lines i hreg).2⟩
  have h0 : pswWrite (some m) lines name status =
      match listIndex name lines with
      | none => none
      | some j =>
        some [esc ++ "[" ++ toString (lines.length - j) ++ "A",
              esc ++ "[2K" ++ "\r",
              m ++ " " ++ name ++ " ... " ++ status ++ "\r",
              esc ++ "[" ++ toString (lines.length - j) ++ "B"] := rfl
  rw [h0, hreg]

/-- Witness for C7: a status update for the second of two registered names. -/
theorem claim_C7_witness :
    pswWrite (some "Starting") ["a", "b"] "b" "done" =
      some [esc ++ "[" ++ toString ((["a", "b"] : List String).length - 1) ++ "A",
            esc ++ "[2K" ++ "\r",
            "Starting" ++ " " ++ "b" ++ " ... " ++ "done" ++ "\r",
            esc ++ "[" ++ toString ((["a", "b"] : List String).length - 1) ++ "B"] ∧
    (["a", "b"] : List String).get? 1 = some "b" ∧
    "b" ∉ (["a", "b"] : List String).take 1 :=
  claim_C7_write_format "Starting" ["a", "b"] "b" "done" 1 (by decide)

/-- Claim C10: when several events carry unexpected errors, only the error of
the last such event is re-raised; every unexpected error still has its entry
in the errors dict under its object's name (here under distinct names, so no
later write overwrites it). -/
theorem claim_C10_last_unexpected_reraised (objects : List α)
    (get_name : α → String) (msg : Option String)
    (events : List (OutEvent α ρ)) (e0 : PyExc)
    (hkeys : ((events.filterMap (entryOf get_name)).map Prod.fst).Nodup)
    (hlast : (unexpectedErrs events).getLast? = some e0) :
    (aggStateOf objects get_name msg events).toReraise = some e0 ∧
    (parallel_execute objects get_name msg events).2 = Except.error e0 ∧
    ∀ e ∈ events, ∀ d : String, e.err = some (PyExc.other d) →
      lookupErr (get_name e.obj)
          (aggStateOf objects get_name msg events).errors =
        some (ErrVal.exc (PyExc.other d)) := by
  have h1 : (aggStateOf objects get_name msg events).toReraise = some e0 := by
    have h0 := aggRun_toReraise get_name msg (aggLines objects get_name msg)
      events (⟨[], [], none, aggRegisterOut objects get_name msg⟩ : AggState ρ)
    rw [hlast] at h0
    exact h0
  refine ⟨h1, ?_, ?_⟩
  · have h2 : (parallel_execute objects get_name msg events).2 =
        match (aggStateOf objects get_name msg events).toReraise with
        | some e => Except.error e
        | none => Except.ok ((aggStateOf objects get_name msg events).results,
            (aggStateOf objects get_name msg events).errors) := rfl
    rw [h2, h1]
  · intro e he d hed
    have hentry : entryOf get_name e =
        some (get_name e.obj, ErrVal.exc (PyExc.other d)) := by
      rw [entryOf, hed]
    have hmem : (get_name e.obj, ErrVal.exc (PyExc.other d)) ∈
        events.filterMap (entryOf get_name) :=
      List.mem_filterMap.mpr ⟨e, he, hentry⟩
    have hfil := filter_key_singleton (get_name e.obj)
      (ErrVal.exc (PyExc.other d)) (events.filterMap (entryOf get_name))
      hkeys hmem
    have heef : errEntriesFor get_name (get_name e.obj) events =
        [ErrVal.exc (PyExc.other d)] := by
      rw [errEntriesFor, hfil]
      rfl
    have hlk := aggRun_lookup get_name msg (aggLines objects get_name msg)
      events (⟨[], [], none, aggRegisterOut objects get_name msg⟩ : AggState ρ)
      (get_name e.obj)
    rw [heef] at hlk
    exact hlk

/-- Witness for C10 on a run with two unexpected errors under distinct
names. -/
theorem claim_C10_witness :
    (aggStateOf [0, 1] natName none
        [(⟨0, none, some (PyExc.other "a")⟩ : OutEvent Nat Nat),
         ⟨1, none, some (PyExc.other "b")⟩]).toReraise =
      some (PyExc.other "b") ∧
    (parallel_execute [0, 1] natName none
        [(⟨0, none, some (PyExc.other "a")⟩ : OutEvent Nat Nat),
         ⟨1, none, some (PyExc.other "b")⟩]).2 =
      Except.error (PyExc.other "b") ∧
    ∀ e ∈ [(⟨0, none, some (PyExc.other "a")⟩ : OutEvent Nat Nat),
         ⟨1, none, some (PyExc.other "b")⟩], ∀ d : String,
      e.err = some (PyExc.other d) →
      lookupErr (natName e.obj)
          (aggStateOf [0, 1] natName none
            [(⟨0, none, some (PyExc.other "a")⟩ : OutEvent Nat Nat),
             ⟨1, none, some (PyExc.other "b")⟩]).errors =
        some (ErrVal.exc (PyExc.other d)) :=
  claim_C10_last_unexpected_reraised [0, 1] natName none
    [⟨0, none, some (PyExc.other "a")⟩, ⟨1, none, some (PyExc.other "b")⟩]
    (PyExc.other "b") (by decide) rfl

end Compose

